import Mathlib

/-!
# Verification of the ai-news-agent item-processing core

Shallow embedding of the item-processing stages of the `ai-news-agent`
repository (`src/filterer.py`, `src/graph.py`, `src/collector.py`,
`src/config.py`) together with proofs about the embedded functions.

Conventions of the embedding:
* Python dicts representing news items become the `Item` structure; the
  transient `skip` / `skip_reason` markers are ordinary fields defaulting
  to `false` / `""` (absent key modelled as the default).
* Python timestamps are modelled as integers (`Int`); only their ordering
  is ever used by the code.
* Python's stable `sorted(..., key=..., reverse=True)` is modelled by
  pairing every element with its original position and merge-sorting by
  the key, with the position as tie-breaker.  For lists of distinct
  positions this characterises the stable descending sort uniquely.
* Strings are manipulated through their character lists (`List Char`);
  Python `.lower()` is character-wise `Char.toLower` (the data handled by
  the program is ASCII).
-/

namespace NewsAgent

/-- A news item, as produced by feed ingestion (`collector.collect_items`).
`category` carries the ingestion hint until a categorization stage
overwrites it; `skip` / `skip_reason` are the transient exclusion markers
set by `node_categorize`. -/
structure Item where
  id : String
  title : String
  link : String
  source : String
  published : Int
  category : String
  skip : Bool := false
  skip_reason : String := ""
deriving DecidableEq, Repr

/-! ## Generic character-list helpers (Python string operations) -/

/-- Python `needle in haystack` (substring containment) on char lists. -/
def isInfixL (n : List Char) : List Char → Bool
  | [] => n.isEmpty
  | c :: t => n.isPrefixOf (c :: t) || isInfixL n t

/-- Python `sub in s` for strings. -/
def strContains (s sub : String) : Bool :=
  isInfixL sub.data s.data

/-- Character-wise lowercasing, Python `str.lower` on ASCII data. -/
def lowerL (l : List Char) : List Char :=
  l.map Char.toLower

/-- Python `str.lower` on strings (character-wise, ASCII model). -/
def strLower (s : String) : String :=
  String.mk (lowerL s.data)

/-! ## `filterer.deduplicate`

```python
def deduplicate(items):
    seen, out = set(), []
    for it in sorted(items, key=lambda x: x["published"], reverse=True):
        if it["id"] in seen:
            continue
        seen.add(it["id"])
        out.append(it)
    return out
```
-/

/-- Pair every element with its position, starting at `n`.  Used to model
the stability of Python's `sorted`. -/
def zipIdxFrom (n : Nat) : List Item → List (Item × Nat)
  | [] => []
  | a :: l => (a, n) :: zipIdxFrom (n + 1) l

/-- Insert `a` in front of the first element `b` with `le a b` (insertion
step of the sort used to model Python's `sorted`). -/
def insertLe (le : α → α → Bool) (a : α) : List α → List α
  | [] => [a]
  | b :: t => if le a b then a :: b :: t else b :: insertLe le a t

/-- Insertion sort by `le`.  For the comparators used here `le` is total,
transitive and antisymmetric (positions break ties), so the result is the
unique `le`-sorted permutation — exactly Python's stable `sorted`. -/
def sortL (le : α → α → Bool) : List α → List α
  | [] => []
  | a :: t => insertLe le a (sortL le t)

/-- Comparator for `sorted(..., key=lambda x: x["published"], reverse=True)`:
larger `published` first, original position as tie-breaker (stability). -/
def pubDescLe (a b : Item × Nat) : Bool :=
  decide (b.1.published < a.1.published) ||
    (decide (a.1.published = b.1.published) && decide (a.2 ≤ b.2))

/-- The stable descending sort of Python's `sorted`, on indexed items. -/
def sortIndexed (items : List Item) : List (Item × Nat) :=
  sortL pubDescLe (zipIdxFrom 0 items)

/-- `sorted(items, key=lambda x: x["published"], reverse=True)`. -/
def sortByPublishedDesc (items : List Item) : List Item :=
  (sortIndexed items).map Prod.fst

/-- The `seen`/`out` loop of `deduplicate`, on indexed items. -/
def dedupLoop : List (Item × Nat) → List String → List (Item × Nat)
  | [], _ => []
  | p :: rest, seen =>
    if p.1.id ∈ seen then dedupLoop rest seen
    else p :: dedupLoop rest (p.1.id :: seen)

/-- `filterer.deduplicate`: keep the first occurrence of every `id` in the
stable published-descending order. -/
def dedupIndexed (items : List Item) : List (Item × Nat) :=
  dedupLoop (sortIndexed items) []

/-- `filterer.deduplicate` (item view). -/
def deduplicate (items : List Item) : List Item :=
  (dedupIndexed items).map Prod.fst

/-! ## `graph.node_filter` (Volume Limiter)

```python
for item in sorted(items, key=lambda x: x["published"], reverse=True):
    if "Papers" in item.get("source", "") and paper_count >= PAPER_LIMIT:
        skipped_papers += 1
        continue
    if "Papers" in item.get("source", ""):
        paper_count += 1
    filtered_items.append(item)
```
-/

/-- `"Papers" in item.get("source", "")`. -/
def isPaper (it : Item) : Bool :=
  strContains it.source "Papers"

/-- The paper-limiting loop of `node_filter`, with running `paper_count`. -/
def limitPapers (limit : Nat) : Nat → List Item → List Item
  | _, [] => []
  | count, it :: rest =>
    if isPaper it ∧ count ≥ limit then limitPapers limit count rest
    else if isPaper it then it :: limitPapers limit (count + 1) rest
    else it :: limitPapers limit count rest

/-- The Volume Limiter of `node_filter`: re-sort (stably) by `published`
descending, then cap the number of paper-source items at `limit`. -/
def volumeLimit (limit : Nat) (items : List Item) : List Item :=
  limitPapers limit 0 (sortByPublishedDesc items)

/-- `graph.node_filter`, with `PAPER_LIMIT` as the `limit` parameter:
deduplicate, then apply the Volume Limiter. -/
def node_filter (limit : Nat) (items : List Item) : List Item :=
  volumeLimit limit (deduplicate items)

/-! ## `config.py` -/

/-- `config.CATEGORIES`. -/
def CATEGORIES : List String :=
  ["Breaking News", "Industry & Business", "Tools & Applications",
   "Research & Models", "Policy & Ethics", "Tutorials & Insights"]

/-- `config.DEFAULT_CATEGORY`. -/
def DEFAULT_CATEGORY : String := "Industry & Business"

/-- `config.COMPANY_NAMES`. -/
def COMPANY_NAMES : List String :=
  ["openai", "google", "microsoft", "meta", "anthropic", "amazon", "nvidia",
   "apple", "ibm", "deepmind", "hugging face", "stability", "mistral", "cohere"]

/-! ## `graph._fallback_categorize`

```python
def _fallback_categorize(item):
    title = item.get("title", "").lower()
    source = item.get("source", "").lower()
    if "papers" in source: return "Research & Models"
    if any(word in title for word in [...]): return ...
    return str(DEFAULT_CATEGORY)
```
-/

/-- `any(word in title for word in words)`. -/
def anyWordIn (title : String) (words : List String) : Bool :=
  words.any (fun w => strContains title w)

/-- `graph._fallback_categorize`, reading only `title` and `source`. -/
def fallback_categorize (it : Item) : String :=
  let title := strLower it.title
  let source := strLower it.source
  if strContains source "papers" then "Research & Models"
  else if anyWordIn title ["lawsuit", "court", "legal", "copyright", "safety",
      "regulation", "ban"] then "Policy & Ethics"
  else if anyWordIn title ["paper", "research", "model", "benchmark", "beats",
      "arxiv", "study"] then "Research & Models"
  else if anyWordIn title ["launch", "release", "tool", "api", "feature",
      "app", "plugin"] then "Tools & Applications"
  else if anyWordIn title ["raise", "funding", "$", "acquire", "valuation",
      "ipo", "billion", "million"] then "Industry & Business"
  else if anyWordIn title ["how", "guide", "tutorial", "should", "opinion",
      "why", "lesson"] then "Tutorials & Insights"
  else if anyWordIn title ["announce", "unveil", "reveal", "breaking", "just"]
    then "Breaking News"
  else DEFAULT_CATEGORY

/-! ## `graph.node_categorize`

The orchestrator.  The external call is modelled as an
`Except Unit String` argument: `.ok text` is the model's raw response,
`.error ()` is an exception raised by the call (`except Exception` path).
`apiKey` tells whether `OPENAI_API_KEY` is configured.
-/

/-- Python `str.strip()` (whitespace trim) on char lists.  Lean's
`Char.isWhitespace` covers the ASCII whitespace the program handles. -/
def trimL (l : List Char) : List Char :=
  ((l.dropWhile Char.isWhitespace).reverse.dropWhile Char.isWhitespace).reverse

/-- Split a char list at every occurrence of `sep` (Python `str.split(sep)`). -/
def splitAll (sep : Char) : List Char → List (List Char)
  | [] => [[]]
  | c :: t =>
    if c = sep then [] :: splitAll sep t
    else
      match splitAll sep t with
      | [] => [[c]]
      | f :: r => (c :: f) :: r

/-- `lines = [line.strip() for line in response_text.split('\n') if line.strip()]`
applied to `content.strip()`. -/
def parseLines (text : String) : List String :=
  ((splitAll '\n' (trimL text.data)).map (fun l => String.mk (trimL l))).filter
    (fun s => s ≠ "")

/-- `"SKIP" in line.upper()`. -/
def hasSkipMarker (line : String) : Bool :=
  isInfixL "SKIP".data (line.data.map Char.toUpper)

/-- First pass of `node_categorize`: walk the items with their index `i`,
consuming `lines[i]` when available.

```python
for i, item in enumerate(state["items"]):
    if i < len(lines):
        line = lines[i]
        if "SKIP" in line.upper():
            item["skip"] = True; item["skip_reason"] = "duplicate"; continue
        for valid_cat in CATEGORIES:
            if valid_cat.lower() in line.lower():
                item["category"] = valid_cat; category_found = True; break
        if not category_found:
            item["category"] = _fallback_categorize(item)
    else:
        item["category"] = _fallback_categorize(item)
```
-/
def firstPassFrom (lines : List String) : Nat → List Item → List Item
  | _, [] => []
  | i, it :: rest =>
    let it' :=
      match lines.get? i with
      | some line =>
        if hasSkipMarker line then
          { it with skip := true, skip_reason := "duplicate" }
        else
          match CATEGORIES.find? (fun c => strContains (strLower line) (strLower c)) with
          | some cat => { it with category := cat }
          | none => { it with category := fallback_categorize it }
      | none => { it with category := fallback_categorize it }
    it' :: firstPassFrom lines (i + 1) rest

/-- First pass of `node_categorize`, from index 0. -/
def firstPass (lines : List String) (items : List Item) : List Item :=
  firstPassFrom lines 0 items

/-- `re.findall(r'\b\w+\b', s)`: maximal runs of word characters
(`[A-Za-z0-9_]` for the ASCII data handled here). -/
def wordChar (c : Char) : Bool :=
  c.isAlphanum || c = '_'

/-- Maximal word-character runs of a string. -/
def wordsOf (s : String) : List String :=
  ((s.data.splitOnP (fun c => !wordChar c)).map String.mk).filter (fun w => w ≠ "")

/-- Python `str.split()` (split on whitespace runs, dropping empties). -/
def splitWhitespace (s : String) : List String :=
  ((s.data.splitOnP Char.isWhitespace).map String.mk).filter (fun w => w ≠ "")

/-- The stop-list of the keyword-fingerprint pass. -/
def KEYWORD_STOPLIST : List String :=
  ["with", "from", "that", "this", "what", "about", "into",
   "have", "been", "will", "would", "could", "should", "their",
   "announces", "launches", "says", "year", "word", "named"]

/-- The (different, smaller) stop-list of the company/topic pass. -/
def TOPIC_STOPLIST : List String :=
  ["with", "from", "announces", "launches", "the", "and"]

/-- First-occurrence deduplication, modelling Python's `set(...)` contents.
Python's set iteration order is unspecified; the embedding determinises it
to insertion order (`list(words)[:5]` below depends on it only when more
than 5 significant words exist). -/
def dedupFirst : List String → List String
  | [] => []
  | w :: rest => w :: (dedupFirst rest).filter (fun x => x ≠ w)

/-- Significant words of the keyword-fingerprint pass:
`set(w for w in re.findall(r'\b\w+\b', title_lower) if len(w) > 3 and w not in [...])`. -/
def significantWords (titleLower : String) : List String :=
  dedupFirst ((wordsOf titleLower).filter
    (fun w => w.length > 3 && !KEYWORD_STOPLIST.contains w))

/-- Lexicographic (code-point) order on char lists, the order Python
uses to compare strings. -/
def strLeL : List Char → List Char → Bool
  | [], _ => true
  | _ :: _, [] => false
  | a :: as, b :: bs => if a = b then strLeL as bs else decide (a < b)

/-- Python `a <= b` on strings. -/
def strLe (a b : String) : Bool :=
  strLeL a.data b.data

/-- Sort a list of strings lexicographically (Python `sorted`). -/
def sortStrings (l : List String) : List String :=
  sortL strLe l

/-- The keyword fingerprint, when at least 3 significant words exist:
`"_".join(sorted(list(words)[:5]))`. -/
def keywordFingerprint (titleLower : String) : Option String :=
  let words := significantWords titleLower
  if words.length ≥ 3 then
    some (String.intercalate "_" (sortStrings (words.take 5)))
  else none

/-- The company/topic key:
```python
for company in COMPANY_NAMES:
    if company in title_lower:
        key_words = [w for w in title_lower.split()
                     if len(w) > 3 and w not in ["with","from","announces","launches","the","and"]]
        topic_key = f"{company}_{'_'.join(sorted(key_words[:3]))}"
        ...
        break
```
`none` when no company name occurs in the title. -/
def topicKey (titleLower : String) : Option String :=
  match COMPANY_NAMES.find? (fun c => strContains titleLower c) with
  | none => none
  | some company =>
    let keyWords := (splitWhitespace titleLower).filter
      (fun w => w.length > 3 && !TOPIC_STOPLIST.contains w)
    some (company ++ "_" ++ String.intercalate "_" (sortStrings (keyWords.take 3)))

/-- Second pass of `node_categorize` (Duplicate-Topic Detector), carrying
the `seen_keywords` and `seen_topics` tables (only key membership is ever
read, so the tables are kept as key lists). -/
def secondPassFrom : List String → List String → List Item → List Item
  | _, _, [] => []
  | seenK, seenT, it :: rest =>
    if it.skip then it :: secondPassFrom seenK seenT rest
    else
      let tl := strLower it.title
      match keywordFingerprint tl with
      | some fp =>
        if seenK.contains fp then
          { it with skip := true, skip_reason := "keyword duplicate" } ::
            secondPassFrom seenK seenT rest
        else
          match topicKey tl with
          | none => it :: secondPassFrom (seenK ++ [fp]) seenT rest
          | some key =>
            if seenT.contains key then
              { it with skip := true, skip_reason := "duplicate topic" } ::
                secondPassFrom (seenK ++ [fp]) seenT rest
            else it :: secondPassFrom (seenK ++ [fp]) (seenT ++ [key]) rest
      | none =>
        match topicKey tl with
        | none => it :: secondPassFrom seenK seenT rest
        | some key =>
          if seenT.contains key then
            { it with skip := true, skip_reason := "duplicate topic" } ::
              secondPassFrom seenK seenT rest
          else it :: secondPassFrom seenK (seenT ++ [key]) rest

/-- Second pass of `node_categorize`, with empty tables. -/
def secondPass (items : List Item) : List Item :=
  secondPassFrom [] [] items

/-- Third pass: reassign any remaining `"All"` category on unskipped items. -/
def thirdPass (items : List Item) : List Item :=
  items.map (fun it =>
    if it.category = "All" && !it.skip then
      { it with category := fallback_categorize it }
    else it)

/-- `graph.node_categorize`.  `apiKey` is whether `OPENAI_API_KEY` is set;
`resp` is the external model call (`.error ()` for a raised exception). -/
def node_categorize (apiKey : Bool) (resp : Except Unit String)
    (items : List Item) : List Item :=
  if !apiKey then
    items.map (fun it => { it with category := fallback_categorize it })
  else if items.isEmpty then items
  else
    match resp with
    | .error _ =>
      items.map (fun it => { it with category := fallback_categorize it })
    | .ok content =>
      let lines := parseLines content
      let items1 := firstPass lines items
      let items2 := secondPass items1
      let items3 := thirdPass items2
      items3.filter (fun it => !it.skip)

/-! ## `collector.normalize_url`

```python
def normalize_url(url):
    parsed = urlparse(url)
    scheme = parsed.scheme.lower()
    netloc = parsed.netloc.lower()
    if netloc.startswith("www."):
        netloc = netloc[4:]
    path = parsed.path.rstrip("/") if parsed.path != "/" else parsed.path
    tracking_params = {...}
    if parsed.query:
        query_params = parse_qs(parsed.query, keep_blank_values=True)
        filtered_params = {k: v for k, v in query_params.items()
                           if k.lower() not in tracking_params}
        query = urlencode(filtered_params, doseq=True) if filtered_params else ""
    else:
        query = ""
    return urlunparse((scheme, netloc, path, "", query, ""))
```

The `urllib.parse` machinery is embedded after CPython 3.11
(`urlsplit` / `_splitparams` / `urlunsplit` / `parse_qsl` / `parse_qs` /
`urlencode` with `quote_plus` / `unquote`).  Two modelling notes:
* percent-decoding is per byte: `%XX` becomes the character with that
  code (CPython accumulates bytes and decodes them as UTF-8 with
  `errors='replace'`); code points ≥ 256 pass through `quote` unescaped
  in the model (CPython escapes their UTF-8 bytes).  Both treatments
  round-trip, which is all the proved properties depend on;
* CPython's `ValueError` on unbalanced `[`/`]` netlocs is not raised;
  the model is total.
-/

/-- `urllib.parse.scheme_chars`. -/
def isSchemeChar (c : Char) : Bool :=
  c.isAlphanum || c = '+' || c = '-' || c = '.'

/-- `urllib.parse.uses_netloc`. -/
def USES_NETLOC : List String :=
  ["", "ftp", "http", "gopher", "nntp", "telnet", "imap", "wais", "file",
   "mms", "https", "shttp", "snews", "prospero", "rtsp", "rtsps", "rtspu",
   "rsync", "svn", "svn+ssh", "sftp", "nfs", "git", "git+ssh", "ws", "wss"]

/-- `urllib.parse.uses_params`. -/
def USES_PARAMS : List String :=
  ["", "ftp", "hdl", "prospero", "http", "imap", "https", "shttp", "rtsp",
   "rtsps", "rtspu", "sip", "sips", "mms", "sftp", "tel"]

/-- The tracking-parameter set of `normalize_url`. -/
def TRACKING_PARAMS : List String :=
  ["utm_source", "utm_medium", "utm_campaign", "utm_term", "utm_content",
   "ref", "source", "fbclid", "gclid", "mc_cid", "mc_eid"]

/-- Python `s.split(sep, 1)`: the part before the first `sep`, and the
part after it when `sep` occurs. -/
def splitOnFirst (sep : Char) : List Char → List Char × Option (List Char)
  | [] => ([], none)
  | c :: cs =>
    if c = sep then ([], some cs)
    else
      let r := splitOnFirst sep cs
      (c :: r.1, r.2)

/-- `urlsplit`'s input cleaning: `lstrip` of C0 controls and space, then
removal of every tab, CR and LF. -/
def cleanUrl (u : List Char) : List Char :=
  (u.dropWhile (fun c => c.toNat ≤ 32)).filter
    (fun c => !(c = '\t' || c = '\r' || c = '\n'))

/-- Head of a char list is an (ASCII) letter. -/
def headIsAlpha : List Char → Bool
  | [] => false
  | c :: _ => c.isAlpha

/-- `urlsplit`'s scheme detection: the part before the first `:` must be
nonempty, start with an ASCII letter and consist of scheme characters;
the scheme is lowercased. -/
def splitScheme (u : List Char) : List Char × List Char :=
  match splitOnFirst ':' u with
  | (pre, some rest) =>
    if !pre.isEmpty && headIsAlpha pre && pre.all isSchemeChar then
      (pre.map Char.toLower, rest)
    else ([], u)
  | (_, none) => ([], u)

/-- Delimiters ending the netloc in `_splitnetloc`. -/
def isNetlocEnd (c : Char) : Bool :=
  c = '/' || c = '?' || c = '#'

/-- `_splitnetloc`: when the remainder starts with `//`, the netloc runs
to the next `/`, `?` or `#`. -/
def splitNetloc : List Char → List Char × List Char
  | '/' :: '/' :: rest =>
    (rest.takeWhile (fun c => !isNetlocEnd c), rest.dropWhile (fun c => !isNetlocEnd c))
  | u => ([], u)

/-- `url.split('#', 1)` (fragment defaults to empty). -/
def splitFragment (u : List Char) : List Char × List Char :=
  match splitOnFirst '#' u with
  | (a, some b) => (a, b)
  | (a, none) => (a, [])

/-- `url.split('?', 1)` (query defaults to empty). -/
def splitQuery (u : List Char) : List Char × List Char :=
  match splitOnFirst '?' u with
  | (a, some b) => (a, b)
  | (a, none) => (a, [])

/-- `_splitparams`, keeping only the path part (the params are discarded
by `normalize_url`): cut at the first `;` of the last path segment. -/
def splitParamsPath (p : List Char) : List Char :=
  if p.contains ';' then
    if p.contains '/' then
      let after := (p.reverse.takeWhile (fun c => c ≠ '/')).reverse
      let before := (p.reverse.dropWhile (fun c => c ≠ '/')).reverse
      if after.contains ';' then before ++ after.takeWhile (fun c => c ≠ ';')
      else p
    else p.takeWhile (fun c => c ≠ ';')
  else p

/-- The components of `urlparse` used by `normalize_url`. -/
structure UrlParts where
  scheme : List Char
  netloc : List Char
  path : List Char
  query : List Char
  fragment : List Char
deriving DecidableEq, Repr

/-- `urllib.parse.urlparse` (CPython 3.11 `urlsplit` plus `_splitparams`). -/
def urlparseChars (u : List Char) : UrlParts :=
  let u0 := cleanUrl u
  let sr := splitScheme u0
  let nr := splitNetloc sr.2
  let fr := splitFragment nr.2
  let qr := splitQuery fr.1
  let path :=
    if USES_PARAMS.contains (String.mk sr.1) then splitParamsPath qr.1 else qr.1
  ⟨sr.1, nr.1, path, qr.2, fr.2⟩

/-- `urllib.parse.urlunparse` with empty `params` and `fragment`, i.e.
`urlunsplit((scheme, netloc, path, query, ''))`. -/
def urlunparseChars (scheme netloc path query : List Char) : List Char :=
  let url := path
  let url :=
    if !netloc.isEmpty ||
        (!scheme.isEmpty && USES_NETLOC.contains (String.mk scheme) &&
          decide (url.take 2 ≠ ['/', '/'])) then
      let url1 := if !url.isEmpty && decide (url.head? ≠ some '/') then '/' :: url else url
      '/' :: '/' :: (netloc ++ url1)
    else url
  let url := if !scheme.isEmpty then scheme ++ ':' :: url else url
  if !query.isEmpty then url ++ '?' :: query else url

/-- `urllib.parse`'s always-safe characters (with empty `safe`), as used
by `urlencode`'s `quote_plus`. -/
def alwaysSafe (c : Char) : Bool :=
  c.isAlphanum || c = '_' || c = '.' || c = '-' || c = '~'

/-- Uppercase hex digit of a value `< 16`. -/
def hexDigitChar (n : Nat) : Char :=
  if n < 10 then Char.ofNat (48 + n) else Char.ofNat (55 + n)

/-- Hex digit test (both cases), Python `int(c, 16)` succeeding. -/
def isHexDigitC (c : Char) : Bool :=
  c.isDigit || ('a' ≤ c && c ≤ 'f') || ('A' ≤ c && c ≤ 'F')

/-- Value of a hex digit. -/
def hexVal (c : Char) : Nat :=
  if c.isDigit then c.toNat - 48
  else if 'a' ≤ c then c.toNat - 87
  else c.toNat - 55

/-- `quote_plus` on one character (byte-level model, see module note). -/
def quoteChar (c : Char) : List Char :=
  if alwaysSafe c then [c]
  else if c = ' ' then ['+']
  else if c.toNat < 256 then
    ['%', hexDigitChar (c.toNat / 16), hexDigitChar (c.toNat % 16)]
  else [c]

/-- `urllib.parse.quote_plus` with empty `safe`. -/
def quotePlus (s : List Char) : List Char :=
  s.flatMap quoteChar

/-- `unquote` composed with the `'+' → ' '` replacement of `parse_qsl`
(byte-level model): `%XX` with two hex digits decodes, a bad `%` sequence
is left literal, `+` becomes a space. -/
def unquotePlus : List Char → List Char
  | [] => []
  | '%' :: h1 :: h2 :: rest2 =>
    if isHexDigitC h1 && isHexDigitC h2 then
      Char.ofNat (16 * hexVal h1 + hexVal h2) :: unquotePlus rest2
    else '%' :: unquotePlus (h1 :: h2 :: rest2)
  | c :: rest =>
    if c = '+' then ' ' :: unquotePlus rest else c :: unquotePlus rest

/-- `parse_qsl(qs, keep_blank_values=True)`: split on `&`, skip empty
fields, split each field at the first `=` (absent `=` gives a blank
value), then decode names and values. -/
def parseQSL (q : List Char) : List (List Char × List Char) :=
  (splitAll '&' q).filterMap (fun field =>
    if field.isEmpty then none
    else
      match splitOnFirst '=' field with
      | (nv, some v) => some (unquotePlus nv, unquotePlus v)
      | (nv, none) => some (unquotePlus nv, []))

/-- One step of `parse_qs`'s dict building: append the value to the
entry of `k`, or add a new entry at the end. -/
def addPair (acc : List (List Char × List (List Char))) (k v : List Char) :
    List (List Char × List (List Char)) :=
  match acc with
  | [] => [(k, [v])]
  | (k', vs) :: rest =>
    if k' = k then (k', vs ++ [v]) :: rest else (k', vs) :: addPair rest k v

/-- `parse_qs(qs, keep_blank_values=True)`: the insertion-ordered dict of
`parse_qsl` pairs, grouped by name. -/
def parse_qs (q : List Char) : List (List Char × List (List Char)) :=
  (parseQSL q).foldl (fun acc kv => addPair acc kv.1 kv.2) []

/-- `'&'.join` of encoded fields. -/
def interL (sep : Char) : List (List Char) → List Char
  | [] => []
  | [f] => f
  | f :: r => f ++ sep :: interL sep r

/-- `urlencode(d, doseq=True)` on the grouped representation: one
`quote_plus(k)=quote_plus(v)` field per value, joined with `&`. -/
def urlencodeQ (l : List (List Char × List (List Char))) : List Char :=
  interL '&' (l.flatMap (fun kv => kv.2.map (fun v => quotePlus kv.1 ++ '=' :: quotePlus v)))

/-- Python `path.rstrip("/")`. -/
def rstripSlash (p : List Char) : List Char :=
  (p.reverse.dropWhile (fun c => c = '/')).reverse

/-- The transformed components `normalize_url` hands to `urlunparse`. -/
def normalizeParts (url : String) : UrlParts :=
  let parsed := urlparseChars url.data
  let scheme := parsed.scheme.map Char.toLower
  let netloc0 := parsed.netloc.map Char.toLower
  let netloc := if "www.".data.isPrefixOf netloc0 then netloc0.drop 4 else netloc0
  let path := if parsed.path = ['/'] then parsed.path else rstripSlash parsed.path
  let query :=
    if !parsed.query.isEmpty then
      let qp := parse_qs parsed.query
      let filtered := qp.filter
        (fun kv => !TRACKING_PARAMS.contains (String.mk (lowerL kv.1)))
      if !filtered.isEmpty then urlencodeQ filtered else []
    else []
  ⟨scheme, netloc, path, query, []⟩

/-- `collector.normalize_url`. -/
def normalize_url (url : String) : String :=
  let c := normalizeParts url
  String.mk (urlunparseChars c.scheme c.netloc c.path c.query)

/-- The leading `/` that `urlunsplit` inserts before a relative path when
it adds the `//` of a netloc-carrying scheme. -/
def addSlash (scheme netloc path : List Char) : List Char :=
  if netloc.isEmpty && !scheme.isEmpty && USES_NETLOC.contains (String.mk scheme)
      && !path.isEmpty && decide (path.head? ≠ some '/') then '/' :: path
  else path

/-- `urlparse`'s params-splitting, applied only for `uses_params` schemes. -/
def applyParams (scheme path : List Char) : List Char :=
  if USES_PARAMS.contains (String.mk scheme) then splitParamsPath path else path

/-- `urlsplit` detects no scheme in `l`: either no `:` occurs, or the
prefix before the first `:` is empty, starts with a non-letter, or has a
non-scheme character. -/
def noSchemeSplit (l : List Char) : Bool :=
  match splitOnFirst ':' l with
  | (_, none) => true
  | (pre, some _) => pre.isEmpty || !headIsAlpha pre || !pre.all isSchemeChar

/-! ## Auxiliary definitions for the statements -/

/-- Two items equal in every field except possibly `category` (the
ingestion-time category hint). -/
def EqExceptCategory (a b : Item) : Prop :=
  a.id = b.id ∧ a.title = b.title ∧ a.link = b.link ∧ a.source = b.source ∧
    a.published = b.published ∧ a.skip = b.skip ∧ a.skip_reason = b.skip_reason

instance (a b : Item) : Decidable (EqExceptCategory a b) := by
  unfold EqExceptCategory; infer_instance

/-- Concrete sample item (legal-keyword title). -/
def sampleA : Item :=
  { id := "idA", title := "New AI lawsuit filed against company", link := "lA",
    source := "Hacker News", published := 10, category := "All" }

/-- Concrete sample item (no categorization keyword). -/
def sampleB : Item :=
  { id := "idB", title := "Some random AI headline", link := "lB",
    source := "Unknown", published := 11, category := "All" }

/-- Relation holding between the two runs of a categorization pass on
hint-differing inputs: all fields except `category` agree, and `category`
itself agrees on items that are not marked excluded (excluded items keep
their incoming hint but are removed before output). -/
def EqUpToSkippedCategory (a b : Item) : Prop :=
  EqExceptCategory a b ∧ (a.skip = false → a.category = b.category)

/-- The company/topic key as the specification words it: built with the
*same stop-list and word extraction as the keyword-fingerprint pass*
(`significantWords`), up to 3 sorted significant words after the first
matching company name.  Used to compare the specified behaviour with the
implemented `topicKey`. -/
def topicKeySpec (titleLower : String) : Option String :=
  match COMPANY_NAMES.find? (fun c => strContains titleLower c) with
  | none => none
  | some company =>
    let keyWords := (wordsOf titleLower).filter
      (fun w => w.length > 3 && !KEYWORD_STOPLIST.contains w)
    some (company ++ "_" ++ String.intercalate "_" (sortStrings (keyWords.take 3)))


/-- Stability of the components `normalize_url` produces on its first
pass, under which a second pass is the identity: the stripped netloc does
not still start with `www.`, the path survives a second params-split and
the leading-slash insertion of `urlunsplit` unchanged, it cannot be
re-read as a `//` netloc, and the components carry the syntactic
invariants that `urlparse` guarantees (lower-case valid scheme,
delimiter-free netloc, slash-stripped path, clean characters). -/
def stableParts (P : UrlParts) : Prop :=
  (¬"www.".data.isPrefixOf P.netloc = true) ∧
  applyParams P.scheme (addSlash P.scheme P.netloc P.path) =
    addSlash P.scheme P.netloc P.path ∧
  ¬(P.netloc = [] ∧ P.path.take 2 = ['/', '/']) ∧
  (P.scheme = [] ∨ (headIsAlpha P.scheme = true ∧
    P.scheme.all isSchemeChar = true)) ∧
  P.scheme.map Char.toLower = P.scheme ∧
  P.netloc.all (fun c => !isNetlocEnd c) = true ∧
  P.netloc.map Char.toLower = P.netloc ∧
  (P.netloc ≠ [] → P.path = [] ∨ P.path.head? = some '/') ∧
  (P.path = ['/'] ∨ rstripSlash P.path = P.path) ∧
  P.path.all (fun c => !(c = '#' || c = '?')) = true ∧
  P.query.all (fun c => !(c = '#')) = true ∧
  (P.scheme = [] → P.netloc = [] →
    noSchemeSplit (P.path ++ if P.query.isEmpty then [] else '?' :: P.query) = true) ∧
  cleanUrl (urlunparseChars P.scheme P.netloc P.path P.query) =
    urlunparseChars P.scheme P.netloc P.path P.query

instance (P : UrlParts) : Decidable (stableParts P) := by
  unfold stableParts
  infer_instance

end NewsAgent

/-! # Theorems -/

namespace NewsAgent

/-! ## C5: the fallback categorizer is total, deterministic and closed -/

/-- **C5**: `_fallback_categorize` is a total function (it is a Lean
function); equal `(title, source)` inputs yield equal outputs; and the
output always lies in the fixed six-category set `CATEGORIES`. -/
theorem fallback_categorize_total_deterministic_closed (a b : Item)
    (h1 : a.title = b.title) (h2 : a.source = b.source) :
    fallback_categorize a = fallback_categorize b ∧
      fallback_categorize a ∈ CATEGORIES := by
  constructor
  · simp only [fallback_categorize, h1, h2]
  · simp only [fallback_categorize]
    split_ifs
    all_goals decide

/-- Witness for C5 at a concrete item. -/
theorem fallback_categorize_total_deterministic_closed_witness :
    sampleA.title = sampleA.title ∧ sampleA.source = sampleA.source ∧
      (fallback_categorize sampleA = fallback_categorize sampleA ∧
        fallback_categorize sampleA ∈ CATEGORIES) :=
  ⟨rfl, rfl, fallback_categorize_total_deterministic_closed sampleA sampleA rfl rfl⟩

/-! ## C3: exception from the model call is contained -/

/-- **C3**: when the external call raises (`.error`), `node_categorize`
returns normally, every item receives its deterministic fallback
category, and nothing is dropped: the output is exactly the input with
`category` overwritten by `_fallback_categorize`. -/
theorem node_categorize_error_recovers (items : List Item) :
    node_categorize true (.error ()) items =
      items.map (fun it => { it with category := fallback_categorize it }) ∧
    ∀ it ∈ node_categorize true (.error ()) items,
      it.category = fallback_categorize it := by
  have heq : node_categorize true (.error ()) items =
      items.map (fun it => { it with category := fallback_categorize it }) := by
    unfold node_categorize
    cases items <;> simp [List.isEmpty]
  refine ⟨heq, ?_⟩
  intro it hit
  rw [heq] at hit
  obtain ⟨x, hx, rfl⟩ := List.mem_map.1 hit
  exact (fallback_categorize_total_deterministic_closed x
    { x with category := fallback_categorize x } rfl rfl).1.symm

/-! ## C4: short model response falls back beyond the available lines -/

/-- Positional behaviour of the first pass: at any index at or beyond the
parsed line count, the item is kept and given its fallback category. -/
theorem firstPassFrom_getElem?_of_no_line (lines : List String) :
    ∀ (items : List Item) (k i : Nat), lines.length ≤ k + i →
      (firstPassFrom lines k items)[i]? =
        items[i]?.map (fun it => { it with category := fallback_categorize it })
  | [], k, i, _ => by simp [firstPassFrom]
  | it :: rest, k, 0, h => by
    have hk : lines[k]? = none := List.getElem?_eq_none (by omega)
    simp [firstPassFrom, hk]
  | it :: rest, k, i + 1, h => by
    simp only [firstPassFrom, List.getElem?_cons_succ]
    exact firstPassFrom_getElem?_of_no_line lines rest (k + 1) i (by omega)

/-- **C4**: when the response parses to fewer non-blank lines than there
are items, the first pass still covers every item, and every item whose
index is beyond the available lines receives the deterministic fallback
category. -/
theorem short_response_gets_fallback (text : String) (items : List Item)
    (i : Nat) (h : (parseLines text).length ≤ i) :
    (firstPass (parseLines text) items).length = items.length ∧
      (firstPass (parseLines text) items)[i]? =
        items[i]?.map (fun it => { it with category := fallback_categorize it }) := by
  constructor
  · unfold firstPass
    generalize 0 = k
    induction items generalizing k with
    | nil => simp [firstPassFrom]
    | cons a l ih => simp [firstPassFrom, ih]
  · exact firstPassFrom_getElem?_of_no_line (parseLines text) items 0 i (by omega)

/-- Witness for C4: a one-line response against two items; the second
item gets its fallback category. -/
theorem short_response_gets_fallback_witness :
    (parseLines "Breaking News").length ≤ 1 ∧
      ((firstPass (parseLines "Breaking News") [sampleA, sampleB]).length =
          [sampleA, sampleB].length ∧
        (firstPass (parseLines "Breaking News") [sampleA, sampleB])[1]? =
          [sampleA, sampleB][1]?.map
            (fun it => { it with category := fallback_categorize it })) :=
  ⟨by decide, short_response_gets_fallback "Breaking News" [sampleA, sampleB] 1 (by decide)⟩

/-! ## C6: no exclusion marker leaves `node_categorize` -/

/-- **C6**: on every path of `node_categorize` (fallback, empty, model
failure, model success), if the incoming collection carries no exclusion
marker then neither does the outgoing one — items marked by SKIP parsing
or duplicate detection are removed before the collection is returned. -/
theorem node_categorize_removes_excluded (apiKey : Bool)
    (resp : Except Unit String) (items : List Item)
    (h : items.all (fun it => !it.skip) = true) :
    (node_categorize apiKey resp items).all (fun it => !it.skip) = true := by
  rw [List.all_eq_true] at h ⊢
  intro it hit
  unfold node_categorize at hit
  split at hit
  · obtain ⟨x, hx, rfl⟩ := List.mem_map.1 hit
    exact h x hx
  · split at hit
    · exact h it hit
    · match resp with
      | .error e =>
        obtain ⟨x, hx, rfl⟩ := List.mem_map.1 hit
        exact h x hx
      | .ok content =>
        simp only at hit
        exact (List.mem_filter.1 hit).2

/-- Witness for C6 on the model-success path. -/
theorem node_categorize_removes_excluded_witness :
    [sampleA, sampleB].all (fun it => !it.skip) = true ∧
      (node_categorize true (.ok "SKIP\nBreaking News") [sampleA, sampleB]).all
        (fun it => !it.skip) = true :=
  ⟨by decide, node_categorize_removes_excluded true (.ok "SKIP\nBreaking News")
    [sampleA, sampleB] (by decide)⟩

/-! ## C10: the ingestion category hint never influences the output -/

theorem item_eq_of_eqExceptCategory {a b : Item} (h : EqExceptCategory a b)
    (hc : a.category = b.category) : a = b := by
  obtain ⟨h1, h2, h3, h4, h5, h6, h7⟩ := h
  cases a; cases b
  simp_all

theorem eqUpToSkippedCategory_refl (a : Item) : EqUpToSkippedCategory a a :=
  ⟨⟨rfl, rfl, rfl, rfl, rfl, rfl, rfl⟩, fun _ => rfl⟩

theorem fallback_congr {a b : Item} (h : EqExceptCategory a b) :
    fallback_categorize a = fallback_categorize b :=
  (fallback_categorize_total_deterministic_closed a b h.2.1 h.2.2.2.1).1

theorem map_fallback_congr {l1 l2 : List Item}
    (h : List.Forall₂ EqExceptCategory l1 l2) :
    l1.map (fun it => { it with category := fallback_categorize it }) =
      l2.map (fun it => { it with category := fallback_categorize it }) := by
  induction h with
  | nil => rfl
  | cons hab _ ih =>
    simp only [List.map_cons, ih, List.cons.injEq, and_true]
    exact item_eq_of_eqExceptCategory
      ⟨hab.1, hab.2.1, hab.2.2.1, hab.2.2.2.1, hab.2.2.2.2.1,
        hab.2.2.2.2.2.1, hab.2.2.2.2.2.2⟩ (fallback_congr hab)

theorem firstPassFrom_hint_indep (lines : List String) :
    ∀ (k : Nat) {l1 l2 : List Item}, List.Forall₂ EqExceptCategory l1 l2 →
      List.Forall₂ EqUpToSkippedCategory
        (firstPassFrom lines k l1) (firstPassFrom lines k l2) := by
  intro k l1 l2 h
  induction h generalizing k with
  | nil => exact List.Forall₂.nil
  | @cons a b l1t l2t hab _ ih =>
    simp only [firstPassFrom]
    refine List.Forall₂.cons ?_ (ih (k + 1))
    obtain ⟨h1, h2, h3, h4, h5, h6, h7⟩ := hab
    cases hl : lines.get? k with
    | none =>
      simp only [hl]
      exact ⟨⟨h1, h2, h3, h4, h5, h6, h7⟩, fun _ =>
        fallback_congr ⟨h1, h2, h3, h4, h5, h6, h7⟩⟩
    | some line =>
      simp only [hl]
      split
      · exact ⟨⟨h1, h2, h3, h4, h5, rfl, rfl⟩, by simp⟩
      · cases hf : List.find? (fun c => strContains (strLower line) (strLower c)) CATEGORIES with
        | some cat =>
          simp only [hf]
          exact ⟨⟨h1, h2, h3, h4, h5, h6, h7⟩, fun _ => rfl⟩
        | none =>
          simp only [hf]
          exact ⟨⟨h1, h2, h3, h4, h5, h6, h7⟩, fun _ =>
            fallback_congr ⟨h1, h2, h3, h4, h5, h6, h7⟩⟩

theorem secondPassFrom_hint_indep :
    ∀ (sK sT : List String) {l1 l2 : List Item},
      List.Forall₂ EqUpToSkippedCategory l1 l2 →
      List.Forall₂ EqUpToSkippedCategory
        (secondPassFrom sK sT l1) (secondPassFrom sK sT l2) := by
  intro sK sT l1 l2 h
  induction h generalizing sK sT with
  | nil => exact List.Forall₂.nil
  | @cons a b l1t l2t hab hrest ih =>
    by_cases ha : a.skip = true
    · have hb : b.skip = true := by rw [← hab.1.2.2.2.2.2.1]; exact ha
      simp only [secondPassFrom, ha, hb, if_true]
      exact List.Forall₂.cons hab (ih sK sT)
    · have hb : a = b :=
        item_eq_of_eqExceptCategory hab.1 (hab.2 (Bool.not_eq_true _ ▸ ha))
      subst hb
      simp only [secondPassFrom, ha, if_false]
      cases hkf : keywordFingerprint (strLower a.title) with
      | none =>
        simp only [hkf]
        cases htk : topicKey (strLower a.title) with
        | none =>
          simp only [htk]
          exact List.Forall₂.cons (eqUpToSkippedCategory_refl _) (ih sK sT)
        | some key =>
          simp only [htk]
          by_cases hmem : sT.contains key = true
          · simp only [hmem, if_true]
            exact List.Forall₂.cons (eqUpToSkippedCategory_refl _) (ih sK sT)
          · simp only [hmem, if_false]
            exact List.Forall₂.cons (eqUpToSkippedCategory_refl _) (ih sK (sT ++ [key]))
      | some fp =>
        simp only [hkf]
        by_cases hmemK : sK.contains fp = true
        · simp only [hmemK, if_true]
          exact List.Forall₂.cons (eqUpToSkippedCategory_refl _) (ih sK sT)
        · simp only [hmemK, if_false]
          cases htk : topicKey (strLower a.title) with
          | none =>
            simp only [htk]
            exact List.Forall₂.cons (eqUpToSkippedCategory_refl _) (ih (sK ++ [fp]) sT)
          | some key =>
            simp only [htk]
            by_cases hmem : sT.contains key = true
            · simp only [hmem, if_true]
              exact List.Forall₂.cons (eqUpToSkippedCategory_refl _) (ih (sK ++ [fp]) sT)
            · simp only [hmem, if_false]
              exact List.Forall₂.cons (eqUpToSkippedCategory_refl _)
                (ih (sK ++ [fp]) (sT ++ [key]))

theorem thirdPass_hint_indep {l1 l2 : List Item}
    (h : List.Forall₂ EqUpToSkippedCategory l1 l2) :
    List.Forall₂ EqUpToSkippedCategory (thirdPass l1) (thirdPass l2) := by
  induction h with
  | nil => exact List.Forall₂.nil
  | @cons a b l1t l2t hab _ ih =>
    simp only [thirdPass, List.map_cons]
    refine List.Forall₂.cons ?_ ih
    by_cases ha : a.skip = true
    · have hb : b.skip = true := by rw [← hab.1.2.2.2.2.2.1]; exact ha
      simp only [ha, hb, Bool.not_true, Bool.and_false, if_false]
      exact hab
    · have hb : a = b :=
        item_eq_of_eqExceptCategory hab.1 (hab.2 (Bool.not_eq_true _ ▸ ha))
      subst hb
      exact eqUpToSkippedCategory_refl _

theorem filter_skip_hint_indep {l1 l2 : List Item}
    (h : List.Forall₂ EqUpToSkippedCategory l1 l2) :
    l1.filter (fun it => !it.skip) = l2.filter (fun it => !it.skip) := by
  induction h with
  | nil => rfl
  | @cons a b l1t l2t hab _ ih =>
    by_cases ha : a.skip = true
    · have hb : b.skip = true := by rw [← hab.1.2.2.2.2.2.1]; exact ha
      simp [ha, hb, ih]
    · have hb : a = b :=
        item_eq_of_eqExceptCategory hab.1 (hab.2 (Bool.not_eq_true _ ▸ ha))
      subst hb
      simp [ha, ih]

/-- **C10** (implicit hyperproperty): the final result of the
Categorization Orchestrator does not depend on the `category` hints the
items carried at ingestion.  For any two input collections equal except
in their `category` fields, and the same credential state and model
response (or failure), `node_categorize` produces identical outputs. -/
theorem node_categorize_hint_independent (apiKey : Bool)
    (resp : Except Unit String) (items1 items2 : List Item)
    (h : List.Forall₂ EqExceptCategory items1 items2) :
    node_categorize apiKey resp items1 = node_categorize apiKey resp items2 := by
  have hlen : items1.length = items2.length := h.length_eq
  unfold node_categorize
  by_cases hk : apiKey = true
  · simp only [hk, Bool.not_true, Bool.false_eq_true, if_false]
    by_cases he : items1.isEmpty = true
    · have he2 : items2.isEmpty = true := by
        rw [List.isEmpty_iff_length_eq_zero] at he ⊢; omega
      cases items1 with
      | nil => cases items2 with
        | nil => rfl
        | cons b t => simp [List.isEmpty] at he2
      | cons a t => simp [List.isEmpty] at he
    · have he2 : ¬items2.isEmpty = true := by
        rw [List.isEmpty_iff_length_eq_zero] at he ⊢; omega
      simp only [he, he2, if_false]
      match resp with
      | .error e => exact map_fallback_congr h
      | .ok content =>
        simp only
        exact filter_skip_hint_indep (thirdPass_hint_indep
          (secondPassFrom_hint_indep [] []
            (firstPassFrom_hint_indep (parseLines content) 0 h)))
  · simp only [Bool.not_eq_true] at hk
    simp only [hk]
    exact map_fallback_congr h

/-- Witness for C10: two one-item collections differing only in the
incoming category hint give identical outputs. -/
theorem node_categorize_hint_independent_witness :
    List.Forall₂ EqExceptCategory [sampleA]
        [{ sampleA with category := "Tools & Applications" }] ∧
      node_categorize true (.ok "Breaking News") [sampleA] =
        node_categorize true (.ok "Breaking News")
          [{ sampleA with category := "Tools & Applications" }] :=
  ⟨List.Forall₂.cons (by exact ⟨rfl, rfl, rfl, rfl, rfl, rfl, rfl⟩) List.Forall₂.nil,
    node_categorize_hint_independent true (.ok "Breaking News") _ _
      (List.Forall₂.cons (by exact ⟨rfl, rfl, rfl, rfl, rfl, rfl, rfl⟩) List.Forall₂.nil)⟩

/-! ## C1: deduplication keeps the newest item per id -/

theorem pubDescLe_trans (a b c : Item × Nat) (hab : pubDescLe a b = true)
    (hbc : pubDescLe b c = true) : pubDescLe a c = true := by
  simp only [pubDescLe, Bool.or_eq_true, Bool.and_eq_true, decide_eq_true_eq] at *
  rcases hab with h1 | ⟨h1, h2⟩ <;> rcases hbc with h3 | ⟨h3, h4⟩
  · left; omega
  · left; omega
  · left; omega
  · right; omega

theorem pubDescLe_total (a b : Item × Nat) :
    (pubDescLe a b || pubDescLe b a) = true := by
  simp only [pubDescLe, Bool.or_eq_true, Bool.and_eq_true, decide_eq_true_eq]
  omega

theorem zipIdxFrom_getElem? :
    ∀ (l : List Item) (n i : Nat),
      (zipIdxFrom n l)[i]? = l[i]?.map (fun a => (a, n + i))
  | [], n, i => by simp [zipIdxFrom]
  | a :: t, n, 0 => by simp [zipIdxFrom]
  | a :: t, n, i + 1 => by
    simp only [zipIdxFrom, List.getElem?_cons_succ]
    rw [zipIdxFrom_getElem? t (n + 1) i]
    simp only [Nat.add_assoc, Nat.add_comm 1 i]

theorem mem_zipIdxFrom_iff {p : Item × Nat} {n : Nat} {l : List Item} :
    p ∈ zipIdxFrom n l ↔ n ≤ p.2 ∧ l[p.2 - n]? = some p.1 := by
  rw [List.mem_iff_getElem?]
  constructor
  · rintro ⟨i, hi⟩
    rw [zipIdxFrom_getElem?] at hi
    match hl : l[i]? with
    | none => rw [hl] at hi; simp at hi
    | some a =>
      rw [hl] at hi
      simp at hi
      cases hi
      simp only []
      constructor
      · omega
      · have h2 : n + i - n = i := by omega
        rw [h2, hl]
  · rintro ⟨hn, hl⟩
    refine ⟨p.2 - n, ?_⟩
    rw [zipIdxFrom_getElem?, hl]
    simp only [Option.map_some', Option.some.injEq]
    have h2 : n + (p.2 - n) = p.2 := by omega
    rw [h2]

theorem insertLe_perm (le : α → α → Bool) (a : α) :
    ∀ l : List α, List.Perm (insertLe le a l) (a :: l)
  | [] => List.Perm.refl _
  | b :: t => by
    simp only [insertLe]
    split
    · exact List.Perm.refl _
    · exact ((insertLe_perm le a t).cons b).trans (List.Perm.swap a b t)

theorem sortL_perm (le : α → α → Bool) :
    ∀ l : List α, List.Perm (sortL le l) l
  | [] => List.Perm.refl _
  | a :: t => by
    simp only [sortL]
    exact (insertLe_perm le a (sortL le t)).trans ((sortL_perm le t).cons a)

theorem mem_insertLe {le : α → α → Bool} {a x : α} {l : List α} :
    x ∈ insertLe le a l ↔ x = a ∨ x ∈ l := by
  rw [(insertLe_perm le a l).mem_iff, List.mem_cons]

theorem insertLe_pairwise {le : α → α → Bool}
    (htrans : ∀ a b c, le a b = true → le b c = true → le a c = true)
    (htotal : ∀ a b, (le a b || le b a) = true) (a : α) :
    ∀ {l : List α}, l.Pairwise (fun x y => le x y = true) →
      (insertLe le a l).Pairwise (fun x y => le x y = true) := by
  intro l
  induction l with
  | nil => intro _; exact List.pairwise_singleton _ a
  | cons b t ih =>
    intro h
    simp only [insertLe]
    by_cases hab : le a b = true
    · rw [if_pos hab]
      refine List.Pairwise.cons ?_ h
      intro y hy
      rcases List.mem_cons.1 hy with rfl | hyt
      · exact hab
      · exact htrans a b y hab (List.rel_of_pairwise_cons h hyt)
    · rw [if_neg hab]
      have hba : le b a = true := by
        rcases Bool.or_eq_true_iff.1 (htotal a b) with h1 | h1
        · exact absurd h1 hab
        · exact h1
      refine List.Pairwise.cons ?_ (ih h.of_cons)
      intro y hy
      rcases mem_insertLe.1 hy with rfl | hyt
      · exact hba
      · exact List.rel_of_pairwise_cons h hyt

theorem sortL_pairwise {le : α → α → Bool}
    (htrans : ∀ a b c, le a b = true → le b c = true → le a c = true)
    (htotal : ∀ a b, (le a b || le b a) = true) :
    ∀ l : List α, (sortL le l).Pairwise (fun x y => le x y = true)
  | [] => List.Pairwise.nil
  | a :: t => by
    simp only [sortL]
    exact insertLe_pairwise htrans htotal a (sortL_pairwise htrans htotal t)

theorem insertLe_of_le {le : α → α → Bool} {a : α} {l : List α}
    (h : ∀ b ∈ l.head?, le a b = true) : insertLe le a l = a :: l := by
  cases l with
  | nil => rfl
  | cons b t =>
    simp only [insertLe]
    rw [if_pos (h b rfl)]

theorem sortL_of_sorted {le : α → α → Bool} :
    ∀ {l : List α}, l.Pairwise (fun x y => le x y = true) → sortL le l = l
  | [], _ => rfl
  | a :: t, h => by
    simp only [sortL, sortL_of_sorted h.of_cons]
    refine insertLe_of_le ?_
    intro b hb
    cases t with
    | nil => simp at hb
    | cons c t2 =>
      simp only [List.head?_cons, Option.mem_def, Option.some.injEq] at hb
      subst hb
      exact List.rel_of_pairwise_cons h (List.mem_cons_self _ _)

theorem sortIndexed_perm (items : List Item) :
    List.Perm (sortIndexed items) (zipIdxFrom 0 items) :=
  sortL_perm _ _

theorem sortIndexed_sorted (items : List Item) :
    (sortIndexed items).Pairwise (fun a b => pubDescLe a b = true) :=
  sortL_pairwise pubDescLe_trans pubDescLe_total _

theorem dedupLoop_sublist :
    ∀ (l : List (Item × Nat)) (seen : List String), List.Sublist (dedupLoop l seen) l
  | [], _ => List.Sublist.refl _
  | p :: rest, seen => by
    simp only [dedupLoop]
    split
    · exact (dedupLoop_sublist rest seen).cons p
    · exact (dedupLoop_sublist rest (p.1.id :: seen)).cons₂ p

theorem mem_dedupLoop :
    ∀ {l : List (Item × Nat)} {seen : List String} {p : Item × Nat},
      p ∈ dedupLoop l seen → p ∈ l ∧ p.1.id ∉ seen := by
  intro l
  induction l with
  | nil => intro seen p h; simp [dedupLoop] at h
  | cons x rest ih =>
    intro seen p h
    simp only [dedupLoop] at h
    split at h
    · have h2 := ih h
      exact ⟨List.mem_cons_of_mem x h2.1, h2.2⟩
    · rcases List.mem_cons.1 h with rfl | hmem
      · exact ⟨List.mem_cons_self _ _, by assumption⟩
      · have h2 := ih hmem
        refine ⟨List.mem_cons_of_mem x h2.1, fun hc => h2.2 ?_⟩
        exact List.mem_cons_of_mem _ hc

theorem dedupLoop_pairwise_ne :
    ∀ (l : List (Item × Nat)) (seen : List String),
      (dedupLoop l seen).Pairwise (fun p q => p.1.id ≠ q.1.id)
  | [], _ => List.Pairwise.nil
  | x :: rest, seen => by
    simp only [dedupLoop]
    split
    · exact dedupLoop_pairwise_ne rest seen
    · refine List.Pairwise.cons ?_ (dedupLoop_pairwise_ne rest (x.1.id :: seen))
      intro q hq heq
      exact (mem_dedupLoop hq).2 (heq ▸ List.mem_cons_self _ _)

theorem dedupLoop_covers :
    ∀ (l : List (Item × Nat)) (seen : List String) (q : Item × Nat), q ∈ l →
      q.1.id ∈ seen ∨ ∃ p ∈ dedupLoop l seen, p.1.id = q.1.id
  | [], _, q, hq => by simp at hq
  | x :: rest, seen, q, hq => by
    simp only [dedupLoop]
    by_cases hx : x.1.id ∈ seen
    · rw [if_pos hx]
      rcases List.mem_cons.1 hq with rfl | hmem
      · exact Or.inl hx
      · exact dedupLoop_covers rest seen q hmem
    · rw [if_neg hx]
      rcases List.mem_cons.1 hq with rfl | hmem
      · exact Or.inr ⟨q, List.mem_cons_self _ _, rfl⟩
      · rcases dedupLoop_covers rest (x.1.id :: seen) q hmem with hin | ⟨p, hp, hpq⟩
        · rcases List.mem_cons.1 hin with heq | hin2
          · exact Or.inr ⟨x, List.mem_cons_self _ _, heq.symm⟩
          · exact Or.inl hin2
        · exact Or.inr ⟨p, List.mem_cons_of_mem x hp, hpq⟩

theorem dedupLoop_is_first :
    ∀ (l : List (Item × Nat)) (seen : List String) (p : Item × Nat),
      l.Pairwise (fun a b => pubDescLe a b = true) →
      p ∈ dedupLoop l seen →
      ∀ q ∈ l, q.1.id = p.1.id →
        q.1.id ∈ seen ∨ q = p ∨ pubDescLe p q = true
  | [], _, p, _, hp => by simp [dedupLoop] at hp
  | x :: rest, seen, p, hsort, hp => by
    intro q hq hid
    simp only [dedupLoop] at hp
    by_cases hx : x.1.id ∈ seen
    · rw [if_pos hx] at hp
      rcases List.mem_cons.1 hq with rfl | hmem
      · exact Or.inl hx
      · exact dedupLoop_is_first rest seen p hsort.of_cons hp q hmem hid
    · rw [if_neg hx] at hp
      rcases List.mem_cons.1 hp with rfl | hrec
      · rcases List.mem_cons.1 hq with rfl | hmem
        · exact Or.inr (Or.inl rfl)
        · exact Or.inr (Or.inr (List.rel_of_pairwise_cons hsort hmem))
      · have hpnot := (mem_dedupLoop hrec).2
        rcases List.mem_cons.1 hq with rfl | hmem
        · exfalso
          apply hpnot
          rw [← hid]
          exact List.mem_cons_self _ _
        · rcases dedupLoop_is_first rest (x.1.id :: seen) p hsort.of_cons hrec q hmem hid
            with hin | hrest
          · rcases List.mem_cons.1 hin with heq | hin2
            · exfalso
              apply hpnot
              rw [← hid, heq]
              exact List.mem_cons_self _ _
            · exact Or.inl hin2
          · exact Or.inr hrest

/-- **C1**: `deduplicate` returns one item per distinct `id` — the ids of
the output are pairwise distinct and every input id is represented — the
output is ordered by `published` descending, every output item comes from
the input, and each output item occurs at an input position `i` such that
every input item sharing its `id` either has a strictly smaller
`published` or has the same `published` and a position `j ≥ i` (maximum
`published`, ties broken by the earliest original position). -/
theorem deduplicate_spec (items : List Item) :
    (deduplicate items).Pairwise (fun a b => a.id ≠ b.id) ∧
    (deduplicate items).Pairwise (fun a b => b.published ≤ a.published) ∧
    (∀ y ∈ deduplicate items, y ∈ items) ∧
    (∀ x ∈ items, ∃ y ∈ deduplicate items, y.id = x.id) ∧
    (∀ y ∈ deduplicate items, ∃ i : Nat, items[i]? = some y ∧
      ∀ (j : Nat) (x : Item), items[j]? = some x → x.id = y.id →
        x.published < y.published ∨ (x.published = y.published ∧ i ≤ j)) := by
  have hperm := sortIndexed_perm items
  have hsort := sortIndexed_sorted items
  have hmemz : ∀ {p : Item × Nat}, p ∈ sortIndexed items ↔
      items[p.2]? = some p.1 := by
    intro p
    rw [hperm.mem_iff, mem_zipIdxFrom_iff]
    simp
  refine ⟨?_, ?_, ?_, ?_, ?_⟩
  · exact (dedupLoop_pairwise_ne _ []).map Prod.fst (fun a b h => h)
  · refine ((hsort.sublist (dedupLoop_sublist _ _)).map Prod.fst ?_)
    intro a b h
    simp only [pubDescLe, Bool.or_eq_true, Bool.and_eq_true, decide_eq_true_eq] at h
    rcases h with h | ⟨h, _⟩
    · exact le_of_lt h
    · exact le_of_eq h.symm
  · intro y hy
    obtain ⟨p, hp, rfl⟩ := List.mem_map.1 hy
    have hz : p ∈ sortIndexed items := (dedupLoop_sublist _ _).mem hp
    exact List.getElem?_mem (hmemz.1 hz)
  · intro x hx
    obtain ⟨j, hj⟩ := List.mem_iff_getElem?.1 hx
    have hzx : (x, j) ∈ sortIndexed items := hmemz.2 hj
    rcases dedupLoop_covers _ [] (x, j) hzx with hin | ⟨p, hp, hpq⟩
    · simp at hin
    · exact ⟨p.1, List.mem_map_of_mem Prod.fst hp, hpq⟩
  · intro y hy
    obtain ⟨p, hp, rfl⟩ := List.mem_map.1 hy
    have hpz : p ∈ sortIndexed items := (dedupLoop_sublist _ _).mem hp
    refine ⟨p.2, hmemz.1 hpz, ?_⟩
    intro j x hj hid
    have hxz : (x, j) ∈ sortIndexed items := hmemz.2 hj
    rcases dedupLoop_is_first _ [] p hsort hp (x, j) hxz hid with hin | heq | hle
    · simp at hin
    · rw [← heq]
      exact Or.inr ⟨rfl, le_refl _⟩
    · simp only [pubDescLe, Bool.or_eq_true, Bool.and_eq_true,
        decide_eq_true_eq] at hle
      rcases hle with h | ⟨h, h2⟩
      · exact Or.inl h
      · exact Or.inr ⟨h.symm, h2⟩

/-- Witness for C1 at the specification's scenario: two items sharing an
id (published 10:00 and 12:00) and a third; the newer duplicate wins and
the result is published-descending. -/
theorem deduplicate_spec_witness :
    deduplicate
        [{ sampleA with id := "a", published := 10 },
         { sampleA with id := "a", published := 12 },
         { sampleB with id := "b", published := 11 }] =
      [{ sampleA with id := "a", published := 12 },
       { sampleB with id := "b", published := 11 }] ∧
    (deduplicate
        [{ sampleA with id := "a", published := 10 },
         { sampleA with id := "a", published := 12 },
         { sampleB with id := "b", published := 11 }]).Pairwise
      (fun a b => a.id ≠ b.id) :=
  ⟨by decide, (deduplicate_spec _).1⟩

/-! ## C2: the Volume Limiter caps paper-source items -/

theorem mem_zipIdxFrom_facts {p : Item × Nat} {n : Nat} {l : List Item}
    (h : p ∈ zipIdxFrom n l) : n ≤ p.2 ∧ p.1 ∈ l := by
  rw [mem_zipIdxFrom_iff] at h
  exact ⟨h.1, List.getElem?_mem h.2⟩

theorem zipIdxFrom_pairwise_of_sorted :
    ∀ {l : List Item} (n : Nat),
      l.Pairwise (fun a b => b.published ≤ a.published) →
      (zipIdxFrom n l).Pairwise (fun p q => pubDescLe p q = true) := by
  intro l
  induction l with
  | nil => intro n _; exact List.Pairwise.nil
  | cons a t ih =>
    intro n h
    simp only [zipIdxFrom]
    refine List.Pairwise.cons ?_ (ih (n + 1) h.of_cons)
    intro q hq
    have hmem := mem_zipIdxFrom_facts hq
    have hle : q.1.published ≤ a.published :=
      List.rel_of_pairwise_cons h hmem.2
    simp only [pubDescLe, Bool.or_eq_true, Bool.and_eq_true, decide_eq_true_eq]
    rcases lt_or_eq_of_le hle with hlt | heq
    · exact Or.inl hlt
    · exact Or.inr ⟨heq.symm, by omega⟩

theorem map_fst_zipIdxFrom : ∀ (l : List Item) (n : Nat),
    (zipIdxFrom n l).map Prod.fst = l
  | [], _ => rfl
  | a :: t, n => by
    simp only [zipIdxFrom, List.map_cons, List.cons.injEq, true_and]
    exact map_fst_zipIdxFrom t (n + 1)

/-- On an already published-descending list (such as `deduplicate`
output), the stable re-sort of `node_filter` is the identity. -/
theorem sortByPublishedDesc_of_sorted {items : List Item}
    (h : items.Pairwise (fun a b => b.published ≤ a.published)) :
    sortByPublishedDesc items = items := by
  unfold sortByPublishedDesc sortIndexed
  rw [sortL_of_sorted (zipIdxFrom_pairwise_of_sorted 0 h)]
  exact map_fst_zipIdxFrom items 0

theorem limitPapers_countP :
    ∀ (limit count : Nat) (l : List Item),
      (limitPapers limit count l).countP isPaper + count ≤ max limit count
  | limit, count, [] => by simp [limitPapers]
  | limit, count, it :: rest => by
    simp only [limitPapers]
    by_cases hp : isPaper it = true
    · by_cases hc : count ≥ limit
      · rw [if_pos ⟨hp, hc⟩]
        exact limitPapers_countP limit count rest
      · rw [if_neg (fun hand => hc hand.2), if_pos hp]
        have h2 := limitPapers_countP limit (count + 1) rest
        simp only [List.countP_cons, hp, if_pos]
        omega
    · rw [if_neg (fun hand => hp hand.1), if_neg hp]
      have h2 := limitPapers_countP limit count rest
      rw [List.countP_cons]
      simp only [hp, Bool.false_eq_true, if_false]
      omega

theorem limitPapers_filter_nonpapers :
    ∀ (limit count : Nat) (l : List Item),
      (limitPapers limit count l).filter (fun it => !isPaper it) =
        l.filter (fun it => !isPaper it)
  | limit, count, [] => by simp [limitPapers]
  | limit, count, it :: rest => by
    simp only [limitPapers]
    by_cases hp : isPaper it = true
    · by_cases hc : count ≥ limit
      · rw [if_pos ⟨hp, hc⟩]
        rw [limitPapers_filter_nonpapers limit count rest]
        simp [List.filter_cons, hp]
      · rw [if_neg (fun hand => hc hand.2), if_pos hp]
        simp [List.filter_cons, hp,
          limitPapers_filter_nonpapers limit (count + 1) rest]
    · rw [if_neg (fun hand => hp hand.1), if_neg hp]
      simp [List.filter_cons, hp,
        limitPapers_filter_nonpapers limit count rest]

theorem limitPapers_sublist :
    ∀ (limit count : Nat) (l : List Item),
      List.Sublist (limitPapers limit count l) l
  | limit, count, [] => List.Sublist.refl _
  | limit, count, it :: rest => by
    simp only [limitPapers]
    split
    · exact (limitPapers_sublist limit count rest).cons it
    · split
      · exact (limitPapers_sublist limit (count + 1) rest).cons₂ it
      · exact (limitPapers_sublist limit count rest).cons₂ it

/-- **C2**: on a deduplicated (hence published-descending) collection and
any limit `N`, the Volume Limiter keeps at most `N` paper-source items,
keeps every non-paper item unchanged and in its original relative order,
and preserves the published-descending order of what it retains. -/
theorem volumeLimit_spec (limit : Nat) (items : List Item)
    (h : items.Pairwise (fun a b => b.published ≤ a.published)) :
    (volumeLimit limit items).countP isPaper ≤ limit ∧
    (volumeLimit limit items).filter (fun it => !isPaper it) =
      items.filter (fun it => !isPaper it) ∧
    (volumeLimit limit items).Pairwise (fun a b => b.published ≤ a.published) := by
  unfold volumeLimit
  rw [sortByPublishedDesc_of_sorted h]
  refine ⟨?_, limitPapers_filter_nonpapers limit 0 items, ?_⟩
  · have h2 := limitPapers_countP limit 0 items
    omega
  · exact h.sublist (limitPapers_sublist limit 0 items)

/-- Witness for C2: limit 1 over one non-paper between two papers; the
older paper is dropped, the non-paper survives. -/
theorem volumeLimit_spec_witness :
    ([{ sampleA with source := "arXiv Papers", published := 3 },
      { sampleB with published := 2 },
      { sampleA with id := "idC", source := "ML Papers", published := 1 }] :
        List Item).Pairwise (fun a b => b.published ≤ a.published) ∧
    ((volumeLimit 1
        [{ sampleA with source := "arXiv Papers", published := 3 },
         { sampleB with published := 2 },
         { sampleA with id := "idC", source := "ML Papers", published := 1 }]).countP
          isPaper ≤ 1 ∧
      (volumeLimit 1
        [{ sampleA with source := "arXiv Papers", published := 3 },
         { sampleB with published := 2 },
         { sampleA with id := "idC", source := "ML Papers", published := 1 }]).filter
          (fun it => !isPaper it) =
        ([{ sampleA with source := "arXiv Papers", published := 3 },
          { sampleB with published := 2 },
          { sampleA with id := "idC", source := "ML Papers", published := 1 }] :
            List Item).filter (fun it => !isPaper it) ∧
      (volumeLimit 1
        [{ sampleA with source := "arXiv Papers", published := 3 },
         { sampleB with published := 2 },
         { sampleA with id := "idC", source := "ML Papers", published := 1 }]).Pairwise
        (fun a b => b.published ≤ a.published)) :=
  ⟨by decide, volumeLimit_spec 1 _ (by decide)⟩

/-! ## C9: the company/topic fingerprint pass -/

theorem containsStr_iff (l : List String) (k : String) :
    l.contains k = true ↔ k ∈ l := by
  induction l with
  | nil => simp [List.contains]
  | cons a t ih => simp [List.contains_cons, ih]


theorem secondPassFrom_cons_skip (sK sT : List String) (a : Item)
    (rest : List Item) (ha : a.skip = true) :
    secondPassFrom sK sT (a :: rest) = a :: secondPassFrom sK sT rest := by
  simp only [secondPassFrom, ha, if_true]

theorem secondPassFrom_cons_kwdup (sK sT : List String) (a : Item)
    (rest : List Item) (fp : String) (ha : a.skip = false)
    (hkf : keywordFingerprint (strLower a.title) = some fp)
    (hmem : sK.contains fp = true) :
    secondPassFrom sK sT (a :: rest) =
      { a with skip := true, skip_reason := "keyword duplicate" } ::
        secondPassFrom sK sT rest := by
  simp only [secondPassFrom, ha, Bool.false_eq_true, if_false, hkf, hmem, if_true]

theorem secondPassFrom_cons_kw_topicdup (sK sT : List String) (a : Item)
    (rest : List Item) (fp key : String) (ha : a.skip = false)
    (hkf : keywordFingerprint (strLower a.title) = some fp)
    (hmemK : sK.contains fp = false) (htk : topicKey (strLower a.title) = some key)
    (hmem : sT.contains key = true) :
    secondPassFrom sK sT (a :: rest) =
      { a with skip := true, skip_reason := "duplicate topic" } ::
        secondPassFrom (sK ++ [fp]) sT rest := by
  simp only [secondPassFrom, ha, Bool.false_eq_true, if_false, hkf, hmemK, htk,
    hmem, if_true]

theorem secondPassFrom_cons_kw_nokey (sK sT : List String) (a : Item)
    (rest : List Item) (fp : String) (ha : a.skip = false)
    (hkf : keywordFingerprint (strLower a.title) = some fp)
    (hmemK : sK.contains fp = false) (htk : topicKey (strLower a.title) = none) :
    secondPassFrom sK sT (a :: rest) =
      a :: secondPassFrom (sK ++ [fp]) sT rest := by
  simp only [secondPassFrom, ha, Bool.false_eq_true, if_false, hkf, hmemK, htk]

theorem secondPassFrom_cons_kw_newkey (sK sT : List String) (a : Item)
    (rest : List Item) (fp key : String) (ha : a.skip = false)
    (hkf : keywordFingerprint (strLower a.title) = some fp)
    (hmemK : sK.contains fp = false) (htk : topicKey (strLower a.title) = some key)
    (hmem : sT.contains key = false) :
    secondPassFrom sK sT (a :: rest) =
      a :: secondPassFrom (sK ++ [fp]) (sT ++ [key]) rest := by
  simp only [secondPassFrom, ha, Bool.false_eq_true, if_false, hkf, hmemK, htk, hmem]

theorem secondPassFrom_cons_nokw_topicdup (sK sT : List String) (a : Item)
    (rest : List Item) (key : String) (ha : a.skip = false)
    (hkf : keywordFingerprint (strLower a.title) = none)
    (htk : topicKey (strLower a.title) = some key) (hmem : sT.contains key = true) :
    secondPassFrom sK sT (a :: rest) =
      { a with skip := true, skip_reason := "duplicate topic" } ::
        secondPassFrom sK sT rest := by
  simp only [secondPassFrom, ha, Bool.false_eq_true, if_false, hkf, htk, hmem,
    if_true]

theorem secondPassFrom_cons_nokw_nokey (sK sT : List String) (a : Item)
    (rest : List Item) (ha : a.skip = false)
    (hkf : keywordFingerprint (strLower a.title) = none)
    (htk : topicKey (strLower a.title) = none) :
    secondPassFrom sK sT (a :: rest) = a :: secondPassFrom sK sT rest := by
  simp only [secondPassFrom, ha, Bool.false_eq_true, if_false, hkf, htk]

theorem secondPassFrom_cons_nokw_newkey (sK sT : List String) (a : Item)
    (rest : List Item) (key : String) (ha : a.skip = false)
    (hkf : keywordFingerprint (strLower a.title) = none)
    (htk : topicKey (strLower a.title) = some key) (hmem : sT.contains key = false) :
    secondPassFrom sK sT (a :: rest) = a :: secondPassFrom sK (sT ++ [key]) rest := by
  simp only [secondPassFrom, ha, Bool.false_eq_true, if_false, hkf, htk, hmem]


/-- If the topic key of an unskipped item is already in the `seen_topics`
table, the second pass marks that item excluded. -/
theorem secondPassFrom_seenTopic_excludes :
    ∀ (items : List Item) (sK sT : List String) (j : Nat) (x : Item)
      (k : String), sT.contains k = true → items[j]? = some x →
      x.skip = false → topicKey (strLower x.title) = some k →
      ∃ y, (secondPassFrom sK sT items)[j]? = some y ∧ y.skip = true := by
  intro items
  induction items with
  | nil => intro sK sT j x k _ hj; simp at hj
  | cons a rest ih =>
    intro sK sT j x k hk hj hxskip hxkey
    match j with
    | 0 =>
      simp only [List.getElem?_cons_zero, Option.some.injEq] at hj
      subst hj
      cases hkf : keywordFingerprint (strLower a.title) with
      | some fp =>
        by_cases hmemK : sK.contains fp = true
        · rw [secondPassFrom_cons_kwdup sK sT a rest fp hxskip hkf hmemK]
          exact ⟨{ a with skip := true, skip_reason := "keyword duplicate" },
            by simp, rfl⟩
        · have hmemK2 : sK.contains fp = false := by simpa using hmemK
          rw [secondPassFrom_cons_kw_topicdup sK sT a rest fp k hxskip hkf
            hmemK2 hxkey hk]
          exact ⟨{ a with skip := true, skip_reason := "duplicate topic" },
            by simp, rfl⟩
      | none =>
        rw [secondPassFrom_cons_nokw_topicdup sK sT a rest k hxskip hkf hxkey hk]
        exact ⟨{ a with skip := true, skip_reason := "duplicate topic" },
          by simp, rfl⟩
    | j' + 1 =>
      simp only [List.getElem?_cons_succ] at hj
      by_cases ha : a.skip = true
      · rw [secondPassFrom_cons_skip sK sT a rest ha]
        simp only [List.getElem?_cons_succ]
        exact ih sK sT j' x k hk hj hxskip hxkey
      · have ha2 : a.skip = false := by simpa using ha
        cases hkf : keywordFingerprint (strLower a.title) with
        | some fp =>
          by_cases hmemK : sK.contains fp = true
          · rw [secondPassFrom_cons_kwdup sK sT a rest fp ha2 hkf hmemK]
            simp only [List.getElem?_cons_succ]
            exact ih sK sT j' x k hk hj hxskip hxkey
          · have hmemK2 : sK.contains fp = false := by simpa using hmemK
            cases htk : topicKey (strLower a.title) with
            | none =>
              rw [secondPassFrom_cons_kw_nokey sK sT a rest fp ha2 hkf hmemK2 htk]
              simp only [List.getElem?_cons_succ]
              exact ih (sK ++ [fp]) sT j' x k hk hj hxskip hxkey
            | some key =>
              by_cases hmem : sT.contains key = true
              · rw [secondPassFrom_cons_kw_topicdup sK sT a rest fp key ha2 hkf
                  hmemK2 htk hmem]
                simp only [List.getElem?_cons_succ]
                exact ih (sK ++ [fp]) sT j' x k hk hj hxskip hxkey
              · have hmem2 : sT.contains key = false := by simpa using hmem
                rw [secondPassFrom_cons_kw_newkey sK sT a rest fp key ha2 hkf
                  hmemK2 htk hmem2]
                simp only [List.getElem?_cons_succ]
                refine ih (sK ++ [fp]) (sT ++ [key]) j' x k ?_ hj hxskip hxkey
                rw [containsStr_iff] at hk ⊢
                exact List.mem_append_left _ hk
        | none =>
          cases htk : topicKey (strLower a.title) with
          | none =>
            rw [secondPassFrom_cons_nokw_nokey sK sT a rest ha2 hkf htk]
            simp only [List.getElem?_cons_succ]
            exact ih sK sT j' x k hk hj hxskip hxkey
          | some key =>
            by_cases hmem : sT.contains key = true
            · rw [secondPassFrom_cons_nokw_topicdup sK sT a rest key ha2 hkf htk hmem]
              simp only [List.getElem?_cons_succ]
              exact ih sK sT j' x k hk hj hxskip hxkey
            · have hmem2 : sT.contains key = false := by simpa using hmem
              rw [secondPassFrom_cons_nokw_newkey sK sT a rest key ha2 hkf htk hmem2]
              simp only [List.getElem?_cons_succ]
              refine ih sK (sT ++ [key]) j' x k ?_ hj hxskip hxkey
              rw [containsStr_iff] at hk ⊢
              exact List.mem_append_left _ hk

/-- First direction of the (amended) company/topic behaviour: once an
item with topic key `k` is kept (unexcluded) at position `i`, every later
input item with the same key and no prior exclusion marker comes out of
the second pass excluded. -/
theorem secondPassFrom_first_kept_later_excluded :
    ∀ (items : List Item) (sK sT : List String) (i j : Nat) (z x : Item)
      (k : String),
      (secondPassFrom sK sT items)[i]? = some z → z.skip = false →
      topicKey (strLower z.title) = some k →
      i < j → items[j]? = some x → x.skip = false →
      topicKey (strLower x.title) = some k →
      ∃ y, (secondPassFrom sK sT items)[j]? = some y ∧ y.skip = true := by
  intro items
  induction items with
  | nil => intro sK sT i j z x k hi; simp [secondPassFrom] at hi
  | cons a rest ih =>
    intro sK sT i j z x k hi hzskip hzkey hij hj hxskip hxkey
    match j with
    | 0 => omega
    | j' + 1 =>
    simp only [List.getElem?_cons_succ] at hj
    by_cases ha : a.skip = true
    · rw [secondPassFrom_cons_skip sK sT a rest ha] at hi ⊢
      match i with
      | 0 =>
        simp only [List.getElem?_cons_zero, Option.some.injEq] at hi
        subst hi
        exact absurd ha (by simp [hzskip])
      | i2 + 1 =>
        simp only [List.getElem?_cons_succ] at hi ⊢
        exact ih sK sT i2 j' z x k hi hzskip hzkey (by omega) hj hxskip hxkey
    · have ha2 : a.skip = false := by simpa using ha
      cases hkf : keywordFingerprint (strLower a.title) with
      | some fp =>
        by_cases hmemK : sK.contains fp = true
        · rw [secondPassFrom_cons_kwdup sK sT a rest fp ha2 hkf hmemK] at hi ⊢
          match i with
          | 0 =>
            simp only [List.getElem?_cons_zero, Option.some.injEq] at hi
            subst hi
            simp at hzskip
          | i2 + 1 =>
            simp only [List.getElem?_cons_succ] at hi ⊢
            exact ih sK sT i2 j' z x k hi hzskip hzkey (by omega) hj hxskip hxkey
        · have hmemK2 : sK.contains fp = false := by simpa using hmemK
          cases htk : topicKey (strLower a.title) with
          | none =>
            rw [secondPassFrom_cons_kw_nokey sK sT a rest fp ha2 hkf hmemK2 htk]
              at hi ⊢
            match i with
            | 0 =>
              simp only [List.getElem?_cons_zero, Option.some.injEq] at hi
              subst hi
              rw [hzkey] at htk
              exact absurd htk (by simp)
            | i2 + 1 =>
              simp only [List.getElem?_cons_succ] at hi ⊢
              exact ih (sK ++ [fp]) sT i2 j' z x k hi hzskip hzkey (by omega)
                hj hxskip hxkey
          | some key =>
            by_cases hmem : sT.contains key = true
            · rw [secondPassFrom_cons_kw_topicdup sK sT a rest fp key ha2 hkf
                hmemK2 htk hmem] at hi ⊢
              match i with
              | 0 =>
                simp only [List.getElem?_cons_zero, Option.some.injEq] at hi
                subst hi
                simp at hzskip
              | i2 + 1 =>
                simp only [List.getElem?_cons_succ] at hi ⊢
                exact ih (sK ++ [fp]) sT i2 j' z x k hi hzskip hzkey (by omega)
                  hj hxskip hxkey
            · have hmem2 : sT.contains key = false := by simpa using hmem
              rw [secondPassFrom_cons_kw_newkey sK sT a rest fp key ha2 hkf
                hmemK2 htk hmem2] at hi ⊢
              match i with
              | 0 =>
                simp only [List.getElem?_cons_zero, Option.some.injEq] at hi
                subst hi
                rw [hzkey] at htk
                simp only [Option.some.injEq] at htk
                subst htk
                simp only [List.getElem?_cons_succ]
                refine secondPassFrom_seenTopic_excludes rest (sK ++ [fp])
                  (sT ++ [k]) j' x k ?_ hj hxskip hxkey
                rw [containsStr_iff]
                exact List.mem_append_right _ (List.mem_singleton_self k)
              | i2 + 1 =>
                simp only [List.getElem?_cons_succ] at hi ⊢
                exact ih (sK ++ [fp]) (sT ++ [key]) i2 j' z x k hi hzskip hzkey
                  (by omega) hj hxskip hxkey
      | none =>
        cases htk : topicKey (strLower a.title) with
        | none =>
          rw [secondPassFrom_cons_nokw_nokey sK sT a rest ha2 hkf htk] at hi ⊢
          match i with
          | 0 =>
            simp only [List.getElem?_cons_zero, Option.some.injEq] at hi
            subst hi
            rw [hzkey] at htk
            exact absurd htk (by simp)
          | i2 + 1 =>
            simp only [List.getElem?_cons_succ] at hi ⊢
            exact ih sK sT i2 j' z x k hi hzskip hzkey (by omega) hj hxskip hxkey
        | some key =>
          by_cases hmem : sT.contains key = true
          · rw [secondPassFrom_cons_nokw_topicdup sK sT a rest key ha2 hkf htk hmem]
              at hi ⊢
            match i with
            | 0 =>
              simp only [List.getElem?_cons_zero, Option.some.injEq] at hi
              subst hi
              simp at hzskip
            | i2 + 1 =>
              simp only [List.getElem?_cons_succ] at hi ⊢
              exact ih sK sT i2 j' z x k hi hzskip hzkey (by omega) hj hxskip hxkey
          · have hmem2 : sT.contains key = false := by simpa using hmem
            rw [secondPassFrom_cons_nokw_newkey sK sT a rest key ha2 hkf htk hmem2]
              at hi ⊢
            match i with
            | 0 =>
              simp only [List.getElem?_cons_zero, Option.some.injEq] at hi
              subst hi
              rw [hzkey] at htk
              simp only [Option.some.injEq] at htk
              subst htk
              simp only [List.getElem?_cons_succ]
              refine secondPassFrom_seenTopic_excludes rest sK (sT ++ [k]) j' x k
                ?_ hj hxskip hxkey
              rw [containsStr_iff]
              exact List.mem_append_right _ (List.mem_singleton_self k)
            | i2 + 1 =>
              simp only [List.getElem?_cons_succ] at hi ⊢
              exact ih sK (sT ++ [key]) i2 j' z x k hi hzskip hzkey (by omega)
                hj hxskip hxkey

/-- Second direction of the (amended) company/topic behaviour: an item
that comes out marked `"duplicate topic"` (and did not enter so marked)
has a topic key that either was pre-seeded in the table or was registered
by an earlier item kept unexcluded with the same key. -/
theorem secondPassFrom_excluded_has_earlier :
    ∀ (items : List Item) (sK sT : List String)
      (hin : ∀ it ∈ items, it.skip = true → it.skip_reason ≠ "duplicate topic")
      (j : Nat) (y : Item),
      (secondPassFrom sK sT items)[j]? = some y →
      y.skip = true → y.skip_reason = "duplicate topic" →
      ∃ k, topicKey (strLower y.title) = some k ∧
        (sT.contains k = true ∨
          ∃ i z, i < j ∧ (secondPassFrom sK sT items)[i]? = some z ∧
            z.skip = false ∧ topicKey (strLower z.title) = some k) := by
  intro items
  induction items with
  | nil => intro sK sT _ j y hj; simp [secondPassFrom] at hj
  | cons a rest ih =>
    intro sK sT hin j y hj hyskip hyreason
    have hina : a.skip = true → a.skip_reason ≠ "duplicate topic" :=
      hin a (List.mem_cons_self _ _)
    have hinr : ∀ it ∈ rest, it.skip = true → it.skip_reason ≠ "duplicate topic" :=
      fun it hit => hin it (List.mem_cons_of_mem a hit)
    by_cases ha : a.skip = true
    · rw [secondPassFrom_cons_skip sK sT a rest ha] at hj ⊢
      match j with
      | 0 =>
        simp only [List.getElem?_cons_zero, Option.some.injEq] at hj
        subst hj
        exact absurd hyreason (hina ha)
      | j' + 1 =>
        simp only [List.getElem?_cons_succ] at hj ⊢
        obtain ⟨k, hk, hcase⟩ := ih sK sT hinr j' y hj hyskip hyreason
        refine ⟨k, hk, ?_⟩
        rcases hcase with hL | ⟨i, z, h1, h2, h3, h4⟩
        · exact Or.inl hL
        · exact Or.inr ⟨i + 1, z, by omega,
            by simpa [List.getElem?_cons_succ] using h2, h3, h4⟩
    · have ha2 : a.skip = false := by simpa using ha
      cases hkf : keywordFingerprint (strLower a.title) with
      | some fp =>
        by_cases hmemK : sK.contains fp = true
        · rw [secondPassFrom_cons_kwdup sK sT a rest fp ha2 hkf hmemK] at hj ⊢
          match j with
          | 0 =>
            simp only [List.getElem?_cons_zero, Option.some.injEq] at hj
            subst hj
            exact absurd hyreason (by simp)
          | j' + 1 =>
            simp only [List.getElem?_cons_succ] at hj ⊢
            obtain ⟨k, hk, hcase⟩ := ih sK sT hinr j' y hj hyskip hyreason
            refine ⟨k, hk, ?_⟩
            rcases hcase with hL | ⟨i, z, h1, h2, h3, h4⟩
            · exact Or.inl hL
            · exact Or.inr ⟨i + 1, z, by omega,
                by simpa [List.getElem?_cons_succ] using h2, h3, h4⟩
        · have hmemK2 : sK.contains fp = false := by simpa using hmemK
          cases htk : topicKey (strLower a.title) with
          | none =>
            rw [secondPassFrom_cons_kw_nokey sK sT a rest fp ha2 hkf hmemK2 htk]
              at hj ⊢
            match j with
            | 0 =>
              simp only [List.getElem?_cons_zero, Option.some.injEq] at hj
              subst hj
              exact absurd hyskip (by simp [ha2])
            | j' + 1 =>
              simp only [List.getElem?_cons_succ] at hj ⊢
              obtain ⟨k, hk, hcase⟩ := ih (sK ++ [fp]) sT hinr j' y hj hyskip hyreason
              refine ⟨k, hk, ?_⟩
              rcases hcase with hL | ⟨i, z, h1, h2, h3, h4⟩
              · exact Or.inl hL
              · exact Or.inr ⟨i + 1, z, by omega,
                  by simpa [List.getElem?_cons_succ] using h2, h3, h4⟩
          | some key =>
            by_cases hmem : sT.contains key = true
            · rw [secondPassFrom_cons_kw_topicdup sK sT a rest fp key ha2 hkf
                hmemK2 htk hmem] at hj ⊢
              match j with
              | 0 =>
                simp only [List.getElem?_cons_zero, Option.some.injEq] at hj
                subst hj
                exact ⟨key, htk, Or.inl hmem⟩
              | j' + 1 =>
                simp only [List.getElem?_cons_succ] at hj ⊢
                obtain ⟨k, hk, hcase⟩ := ih (sK ++ [fp]) sT hinr j' y hj hyskip hyreason
                refine ⟨k, hk, ?_⟩
                rcases hcase with hL | ⟨i, z, h1, h2, h3, h4⟩
                · exact Or.inl hL
                · exact Or.inr ⟨i + 1, z, by omega,
                    by simpa [List.getElem?_cons_succ] using h2, h3, h4⟩
            · have hmem2 : sT.contains key = false := by simpa using hmem
              rw [secondPassFrom_cons_kw_newkey sK sT a rest fp key ha2 hkf
                hmemK2 htk hmem2] at hj ⊢
              match j with
              | 0 =>
                simp only [List.getElem?_cons_zero, Option.some.injEq] at hj
                subst hj
                exact absurd hyskip (by simp [ha2])
              | j' + 1 =>
                simp only [List.getElem?_cons_succ] at hj ⊢
                obtain ⟨k, hk, hcase⟩ :=
                  ih (sK ++ [fp]) (sT ++ [key]) hinr j' y hj hyskip hyreason
                refine ⟨k, hk, ?_⟩
                rcases hcase with hL | ⟨i, z, h1, h2, h3, h4⟩
                · rw [containsStr_iff] at hL
                  rcases List.mem_append.1 hL with hL2 | hL2
                  · exact Or.inl ((containsStr_iff sT k).2 hL2)
                  · have hkey : k = key := List.mem_singleton.1 hL2
                    subst hkey
                    exact Or.inr ⟨0, a, by omega, by simp, ha2, htk⟩
                · exact Or.inr ⟨i + 1, z, by omega,
                    by simpa [List.getElem?_cons_succ] using h2, h3, h4⟩
      | none =>
        cases htk : topicKey (strLower a.title) with
        | none =>
          rw [secondPassFrom_cons_nokw_nokey sK sT a rest ha2 hkf htk] at hj ⊢
          match j with
          | 0 =>
            simp only [List.getElem?_cons_zero, Option.some.injEq] at hj
            subst hj
            exact absurd hyskip (by simp [ha2])
          | j' + 1 =>
            simp only [List.getElem?_cons_succ] at hj ⊢
            obtain ⟨k, hk, hcase⟩ := ih sK sT hinr j' y hj hyskip hyreason
            refine ⟨k, hk, ?_⟩
            rcases hcase with hL | ⟨i, z, h1, h2, h3, h4⟩
            · exact Or.inl hL
            · exact Or.inr ⟨i + 1, z, by omega,
                by simpa [List.getElem?_cons_succ] using h2, h3, h4⟩
        | some key =>
          by_cases hmem : sT.contains key = true
          · rw [secondPassFrom_cons_nokw_topicdup sK sT a rest key ha2 hkf htk hmem]
              at hj ⊢
            match j with
            | 0 =>
              simp only [List.getElem?_cons_zero, Option.some.injEq] at hj
              subst hj
              exact ⟨key, htk, Or.inl hmem⟩
            | j' + 1 =>
              simp only [List.getElem?_cons_succ] at hj ⊢
              obtain ⟨k, hk, hcase⟩ := ih sK sT hinr j' y hj hyskip hyreason
              refine ⟨k, hk, ?_⟩
              rcases hcase with hL | ⟨i, z, h1, h2, h3, h4⟩
              · exact Or.inl hL
              · exact Or.inr ⟨i + 1, z, by omega,
                  by simpa [List.getElem?_cons_succ] using h2, h3, h4⟩
          · have hmem2 : sT.contains key = false := by simpa using hmem
            rw [secondPassFrom_cons_nokw_newkey sK sT a rest key ha2 hkf htk hmem2]
              at hj ⊢
            match j with
            | 0 =>
              simp only [List.getElem?_cons_zero, Option.some.injEq] at hj
              subst hj
              exact absurd hyskip (by simp [ha2])
            | j' + 1 =>
              simp only [List.getElem?_cons_succ] at hj ⊢
              obtain ⟨k, hk, hcase⟩ := ih sK (sT ++ [key]) hinr j' y hj hyskip hyreason
              refine ⟨k, hk, ?_⟩
              rcases hcase with hL | ⟨i, z, h1, h2, h3, h4⟩
              · rw [containsStr_iff] at hL
                rcases List.mem_append.1 hL with hL2 | hL2
                · exact Or.inl ((containsStr_iff sT k).2 hL2)
                · have hkey : k = key := List.mem_singleton.1 hL2
                  subst hkey
                  exact Or.inr ⟨0, a, by omega, by simp, ha2, htk⟩
              · exact Or.inr ⟨i + 1, z, by omega,
                  by simpa [List.getElem?_cons_succ] using h2, h3, h4⟩

/-- **C9 (amended)**: the company/topic pass uses the key `topicKey`
(first matching company name plus up to 3 sorted whitespace-split words
longer than 3 characters filtered by the stop-list
`{with, from, announces, launches, the, and}` — a smaller list than the
keyword-fingerprint pass's stop-list).  With the empty tables of
`node_categorize`: once an item with a given key is kept, every later
unmarked item with the same key comes out excluded; and conversely every
item marked "duplicate topic" owes its exclusion to an earlier kept item
with the same key. -/
theorem topic_pass_amended_spec (items : List Item) :
    (∀ (i j : Nat) (z x : Item) (k : String),
      (secondPass items)[i]? = some z → z.skip = false →
      topicKey (strLower z.title) = some k →
      i < j → items[j]? = some x → x.skip = false →
      topicKey (strLower x.title) = some k →
      ∃ y, (secondPass items)[j]? = some y ∧ y.skip = true) ∧
    (∀ (j : Nat) (y : Item),
      (∀ it ∈ items, it.skip = true → it.skip_reason ≠ "duplicate topic") →
      (secondPass items)[j]? = some y →
      y.skip = true → y.skip_reason = "duplicate topic" →
      ∃ k, topicKey (strLower y.title) = some k ∧
        ∃ i z, i < j ∧ (secondPass items)[i]? = some z ∧
          z.skip = false ∧ topicKey (strLower z.title) = some k) := by
  constructor
  · intro i j z x k hi hz hzk hij hj hx hxk
    exact secondPassFrom_first_kept_later_excluded items [] [] i j z x k
      hi hz hzk hij hj hx hxk
  · intro j y hin hj hys hyr
    obtain ⟨k, hk, hcase⟩ :=
      secondPassFrom_excluded_has_earlier items [] [] hin j y hj hys hyr
    rcases hcase with hL | hR
    · simp [List.contains] at hL
    · exact ⟨k, hk, hR⟩

/-- Counterexample to C9 as stated: under the *claimed* key (same
stop-list as the keyword pass, `topicKeySpec`), the two titles
`"openai says ai"` and `"openai that ai"` produce the same key —
`"says"`/`"that"` are on the keyword stop-list — so the claim requires
the second item to be excluded; the implementation's pass keeps both
items untouched, because its own (smaller) stop-list keeps `"says"` and
`"that"`, making the actual keys differ. -/
theorem topic_pass_counterexample :
    topicKeySpec "openai says ai" = topicKeySpec "openai that ai" ∧
    (topicKeySpec "openai says ai").isSome = true ∧
    secondPass
        [{ sampleA with title := "openai says ai" },
         { sampleB with title := "openai that ai" }] =
      [{ sampleA with title := "openai says ai" },
       { sampleB with title := "openai that ai" }] ∧
    topicKey "openai says ai" ≠ topicKey "openai that ai" := by
  refine ⟨by decide, by decide, by decide, by decide⟩

/-- Witness for the amended C9 on two items with equal (actual) topic
keys: the first is kept, the second is excluded. -/
theorem topic_pass_amended_spec_witness :
    ((secondPass [{ sampleA with title := "openai says ai" },
        { sampleB with title := "openai says ai" }])[0]? =
          some { sampleA with title := "openai says ai" } ∧
      ({ sampleA with title := "openai says ai" } : Item).skip = false ∧
      topicKey (strLower ({ sampleA with title := "openai says ai" } : Item).title) =
        some "openai_openai_says" ∧
      [{ sampleA with title := "openai says ai" },
        { sampleB with title := "openai says ai" }][1]? =
          some { sampleB with title := "openai says ai" } ∧
      ({ sampleB with title := "openai says ai" } : Item).skip = false) ∧
    ∃ y, (secondPass [{ sampleA with title := "openai says ai" },
        { sampleB with title := "openai says ai" }])[1]? = some y ∧
      y.skip = true :=
  ⟨⟨by decide, by decide, by decide, by decide, by decide⟩,
    (topic_pass_amended_spec _).1 0 1
      { sampleA with title := "openai says ai" }
      { sampleB with title := "openai says ai" } "openai_openai_says"
      (by decide) (by decide) (by decide) (by decide) (by decide) (by decide)
      (by decide)⟩

/-! ## C7/C8: percent-encoding lemmas -/

theorem unquotePlus_plus (rest : List Char) :
    unquotePlus ('+' :: rest) = ' ' :: unquotePlus rest := rfl

theorem unquotePlus_cons_ne (c : Char) (rest : List Char) (h1 : c ≠ '+')
    (h2 : c ≠ '%') : unquotePlus (c :: rest) = c :: unquotePlus rest := by
  simp [unquotePlus, h1, h2]

theorem unquotePlus_hex (h1 h2 : Char) (rest : List Char)
    (hh1 : isHexDigitC h1 = true) (hh2 : isHexDigitC h2 = true) :
    unquotePlus ('%' :: h1 :: h2 :: rest) =
      Char.ofNat (16 * hexVal h1 + hexVal h2) :: unquotePlus rest := by
  simp [unquotePlus, hh1, hh2]

theorem hexDigitChar_facts (n : Nat) (h : n < 16) :
    isHexDigitC (hexDigitChar n) = true ∧ hexVal (hexDigitChar n) = n := by
  have h2 : ∀ m : Fin 16,
      isHexDigitC (hexDigitChar m.val) = true ∧ hexVal (hexDigitChar m.val) = m.val := by
    decide
  exact h2 ⟨n, h⟩

theorem alwaysSafe_ne (c : Char) (h : alwaysSafe c = true) :
    c ≠ '+' ∧ c ≠ '%' := by
  constructor
  · rintro rfl
    exact absurd h (by decide)
  · rintro rfl
    exact absurd h (by decide)

theorem unquotePlus_quoteChar (c : Char) (rest : List Char) :
    unquotePlus (quoteChar c ++ rest) = c :: unquotePlus rest := by
  by_cases hs : alwaysSafe c = true
  · obtain ⟨hp, hpc⟩ := alwaysSafe_ne c hs
    simp only [quoteChar, hs, if_true, List.cons_append, List.nil_append]
    exact unquotePlus_cons_ne c rest hp hpc
  · by_cases hsp : c = ' '
    · subst hsp
      simp only [quoteChar, hs, Bool.false_eq_true, if_true, if_false,
        List.cons_append, List.nil_append]
      exact unquotePlus_plus rest
    · by_cases h256 : c.toNat < 256
      · simp only [quoteChar, hs, hsp, h256, Bool.false_eq_true, if_true,
          if_false, List.cons_append, List.nil_append]
        rw [unquotePlus_hex _ _ rest
          (hexDigitChar_facts (c.toNat / 16) (by omega)).1
          (hexDigitChar_facts (c.toNat % 16) (by omega)).1]
        rw [(hexDigitChar_facts (c.toNat / 16) (by omega)).2,
          (hexDigitChar_facts (c.toNat % 16) (by omega)).2]
        rw [Nat.div_add_mod c.toNat 16, Char.ofNat_toNat]
      · have hp : c ≠ '+' := by rintro rfl; exact h256 (by decide)
        have hpc : c ≠ '%' := by rintro rfl; exact h256 (by decide)
        simp only [quoteChar, hs, hsp, h256, Bool.false_eq_true, if_true,
          if_false, List.cons_append, List.nil_append]
        exact unquotePlus_cons_ne c rest hp hpc

theorem unquotePlus_quotePlus (s : List Char) :
    unquotePlus (quotePlus s) = s := by
  induction s with
  | nil => rfl
  | cons c t ih =>
    simp only [quotePlus, List.flatMap_cons]
    rw [show (quoteChar c ++ t.flatMap quoteChar) =
      quoteChar c ++ quotePlus t from rfl]
    rw [unquotePlus_quoteChar, ih]

theorem mem_quotePlus_class {c2 : Char} {s : List Char}
    (h : c2 ∈ quotePlus s) :
    alwaysSafe c2 = true ∨ c2 = '+' ∨ c2 = '%' ∨ isHexDigitC c2 = true ∨
      255 < c2.toNat := by
  simp only [quotePlus, List.mem_flatMap] at h
  obtain ⟨c, _, hc⟩ := h
  unfold quoteChar at hc
  split at hc
  · rcases List.mem_singleton.1 hc with rfl
    left; assumption
  · split at hc
    · rcases List.mem_singleton.1 hc with rfl
      right; left; rfl
    · split at hc
      · rcases List.mem_cons.1 hc with rfl | hc2
        · right; right; left; rfl
        · rcases List.mem_cons.1 hc2 with rfl | hc3
          · right; right; right; left
            exact (hexDigitChar_facts _ (by omega)).1
          · rcases List.mem_singleton.1 hc3 with rfl
            right; right; right; left
            exact (hexDigitChar_facts _ (by omega)).1
      · rcases List.mem_singleton.1 hc with rfl
        right; right; right; right
        omega

theorem quotePlus_ne_special {t : Char} (ht : alwaysSafe t = false)
    (ht2 : t ≠ '+') (ht3 : t ≠ '%') (ht4 : isHexDigitC t = false)
    (ht5 : t.toNat < 256) {s : List Char} {c2 : Char}
    (h : c2 ∈ quotePlus s) : c2 ≠ t := by
  rintro rfl
  rcases mem_quotePlus_class h with h1 | h1 | h1 | h1 | h1
  · rw [ht] at h1; exact absurd h1 (by simp)
  · exact ht2 h1
  · exact ht3 h1
  · rw [ht4] at h1; exact absurd h1 (by simp)
  · omega

/-! ## C7/C8: split/join lemmas -/

theorem splitOnFirst_no_sep {sep : Char} :
    ∀ {l : List Char}, sep ∉ l → splitOnFirst sep l = (l, none)
  | [], _ => rfl
  | c :: cs, h => by
    have hc : ¬c = sep := fun hcc => h (hcc ▸ List.mem_cons_self _ _)
    have ht : sep ∉ cs := fun hm => h (List.mem_cons_of_mem _ hm)
    simp only [splitOnFirst, hc, if_false, splitOnFirst_no_sep ht]

theorem splitOnFirst_append {sep : Char} :
    ∀ {a : List Char} (b : List Char), sep ∉ a →
      splitOnFirst sep (a ++ sep :: b) = (a, some b)
  | [], b, _ => by simp [splitOnFirst]
  | c :: cs, b, h => by
    have hc : ¬c = sep := fun hcc => h (hcc ▸ List.mem_cons_self _ _)
    have ht : sep ∉ cs := fun hm => h (List.mem_cons_of_mem _ hm)
    simp only [List.cons_append, splitOnFirst, hc, if_false, List.append_eq,
      splitOnFirst_append b ht]

theorem splitOnFirst_not_mem_fst (sep : Char) :
    ∀ (l : List Char), sep ∉ (splitOnFirst sep l).1
  | [] => by simp [splitOnFirst]
  | c :: cs => by
    by_cases hc : c = sep
    · simp [splitOnFirst, hc]
    · simp only [splitOnFirst, hc, if_false, List.mem_cons, not_or]
      exact ⟨fun h => hc h.symm, splitOnFirst_not_mem_fst sep cs⟩

theorem splitOnFirst_reconstruct (sep : Char) :
    ∀ (l : List Char),
      ((splitOnFirst sep l).2 = none ∧ (splitOnFirst sep l).1 = l) ∨
      ∃ b, (splitOnFirst sep l).2 = some b ∧
        l = (splitOnFirst sep l).1 ++ sep :: b
  | [] => Or.inl ⟨rfl, rfl⟩
  | c :: cs => by
    by_cases hc : c = sep
    · subst hc
      exact Or.inr ⟨cs, by simp [splitOnFirst]⟩
    · rcases splitOnFirst_reconstruct sep cs with ⟨h1, h2⟩ | ⟨b, h1, h2⟩
      · exact Or.inl (by simp [splitOnFirst, hc, h1, h2])
      · refine Or.inr ⟨b, by simp [splitOnFirst, hc, h1], ?_⟩
        simp only [splitOnFirst, hc, if_false]
        rw [List.cons_append]
        exact congrArg (c :: ·) h2

theorem splitAll_no_sep {sep : Char} :
    ∀ {l : List Char}, sep ∉ l → splitAll sep l = [l]
  | [], _ => rfl
  | c :: cs, h => by
    have hc : ¬c = sep := fun hcc => h (hcc ▸ List.mem_cons_self _ _)
    have ht : sep ∉ cs := fun hm => h (List.mem_cons_of_mem _ hm)
    simp only [splitAll, hc, if_false, splitAll_no_sep ht]

theorem splitAll_append {sep : Char} :
    ∀ {a : List Char} (b : List Char), sep ∉ a →
      splitAll sep (a ++ sep :: b) = a :: splitAll sep b
  | [], b, _ => by simp [splitAll]
  | c :: cs, b, h => by
    have hc : ¬c = sep := fun hcc => h (hcc ▸ List.mem_cons_self _ _)
    have ht : sep ∉ cs := fun hm => h (List.mem_cons_of_mem _ hm)
    rw [List.cons_append]
    simp only [splitAll, hc, if_false, splitAll_append b ht]

theorem mem_interL {sep : Char} {c : Char} :
    ∀ {fs : List (List Char)}, c ∈ interL sep fs → c = sep ∨ ∃ f ∈ fs, c ∈ f
  | [], h => by simp [interL] at h
  | [f], h => by
    simp only [interL] at h
    exact Or.inr ⟨f, List.mem_singleton_self f, h⟩
  | f :: f2 :: t, h => by
    simp only [interL, List.mem_append, List.mem_cons] at h
    rcases h with h | h | h
    · exact Or.inr ⟨f, List.mem_cons_self _ _, h⟩
    · exact Or.inl h
    · rcases mem_interL h with h2 | ⟨f3, h3, h4⟩
      · exact Or.inl h2
      · exact Or.inr ⟨f3, List.mem_cons_of_mem _ h3, h4⟩

/-! ## C7/C8: `parse_qs` / `urlencode` round trip -/

theorem eq_not_mem_quotePlus {s : List Char} {c2 : Char}
    (h : c2 ∈ quotePlus s) : c2 ≠ '=' :=
  quotePlus_ne_special (by decide) (by decide) (by decide) (by decide)
    (by decide) h

theorem amp_not_mem_quotePlus {s : List Char} {c2 : Char}
    (h : c2 ∈ quotePlus s) : c2 ≠ '&' :=
  quotePlus_ne_special (by decide) (by decide) (by decide) (by decide)
    (by decide) h

theorem hash_not_mem_quotePlus {s : List Char} {c2 : Char}
    (h : c2 ∈ quotePlus s) : c2 ≠ '#' :=
  quotePlus_ne_special (by decide) (by decide) (by decide) (by decide)
    (by decide) h

theorem amp_not_mem_field (k v : List Char) :
    '&' ∉ quotePlus k ++ '=' :: quotePlus v := by
  intro h
  rcases List.mem_append.1 h with h2 | h2
  · exact amp_not_mem_quotePlus h2 rfl
  · rcases List.mem_cons.1 h2 with h3 | h3
    · exact absurd h3.symm (by decide)
    · exact amp_not_mem_quotePlus h3 rfl

theorem parseQSL_encoded_fields :
    ∀ (fs : List (List Char × List Char)),
      parseQSL (interL '&'
        (fs.map (fun kv => quotePlus kv.1 ++ '=' :: quotePlus kv.2))) = fs
  | [] => rfl
  | [kv] => by
    simp only [List.map_cons, List.map_nil, interL, parseQSL]
    rw [splitAll_no_sep (amp_not_mem_field kv.1 kv.2)]
    simp only [List.filterMap_cons, List.filterMap_nil]
    rw [if_neg (by simp)]
    rw [splitOnFirst_append (quotePlus kv.2)
      (fun h => eq_not_mem_quotePlus h rfl)]
    simp [unquotePlus_quotePlus]
  | kv :: kv2 :: t => by
    have hrest := parseQSL_encoded_fields (kv2 :: t)
    simp only [List.map_cons, interL]
    unfold parseQSL
    rw [splitAll_append _ (amp_not_mem_field kv.1 kv.2)]
    simp only [List.filterMap_cons]
    rw [if_neg (by simp)]
    rw [splitOnFirst_append (quotePlus kv.2)
      (fun h => eq_not_mem_quotePlus h rfl)]
    simp only [unquotePlus_quotePlus]
    unfold parseQSL at hrest
    simp only [List.map_cons, interL] at hrest
    rw [hrest]

theorem urlencodeQ_fields (g : List (List Char × List (List Char))) :
    urlencodeQ g = interL '&'
      ((g.flatMap (fun kv => kv.2.map (fun v => (kv.1, v)))).map
        (fun kv => quotePlus kv.1 ++ '=' :: quotePlus kv.2)) := by
  unfold urlencodeQ
  congr 1
  induction g with
  | nil => rfl
  | cons kv t ih =>
    simp only [List.flatMap_cons, List.map_append, List.map_map, ih]
    rfl

theorem parseQSL_urlencodeQ (g : List (List Char × List (List Char))) :
    parseQSL (urlencodeQ g) =
      g.flatMap (fun kv => kv.2.map (fun v => (kv.1, v))) := by
  rw [urlencodeQ_fields, parseQSL_encoded_fields]

theorem addPair_fst (k v : List Char) :
    ∀ (acc : List (List Char × List (List Char))),
      (addPair acc k v).map Prod.fst =
        if k ∈ acc.map Prod.fst then acc.map Prod.fst
        else acc.map Prod.fst ++ [k]
  | [] => by simp [addPair]
  | (k2, vs) :: rest => by
    by_cases hk : k2 = k
    · subst hk
      simp [addPair]
    · have hkk : ¬k = k2 := fun hh => hk hh.symm
      simp only [addPair, hk, if_false, List.map_cons, addPair_fst k v rest]
      by_cases hmem : k ∈ rest.map Prod.fst
      · simp [hmem, hkk]
      · simp [hmem, hkk]

theorem addPair_new (k v : List Char) :
    ∀ (acc : List (List Char × List (List Char))),
      k ∉ acc.map Prod.fst → addPair acc k v = acc ++ [(k, [v])]
  | [] => fun _ => rfl
  | (k2, vs) :: rest => by
    intro h
    simp only [List.map_cons, List.mem_cons, not_or] at h
    have hkk : ¬k2 = k := fun hh => h.1 hh.symm
    simp only [addPair, hkk, if_false]
    rw [addPair_new k v rest h.2]
    simp

theorem addPair_match (k v : List Char) (vs0 : List (List Char)) :
    ∀ (acc : List (List Char × List (List Char))),
      k ∉ acc.map Prod.fst →
      addPair (acc ++ [(k, vs0)]) k v = acc ++ [(k, vs0 ++ [v])]
  | [] => by intro _; simp [addPair]
  | (k2, vs) :: rest => by
    intro h
    simp only [List.map_cons, List.mem_cons, not_or] at h
    simp only [List.cons_append, addPair, List.append_eq]
    rw [if_neg (fun hh => h.1 hh.symm), addPair_match k v vs0 rest h.2]

theorem foldl_addPair_sameKey (k : List Char) (vs0 : List (List Char)) :
    ∀ (vs : List (List Char)) (acc : List (List Char × List (List Char))),
      k ∉ acc.map Prod.fst →
      ((vs.map (fun v => (k, v))).foldl
          (fun acc kv => addPair acc kv.1 kv.2) (acc ++ [(k, vs0)])) =
        acc ++ [(k, vs0 ++ vs)]
  | [], acc, _ => by simp
  | v :: vs, acc, h => by
    simp only [List.map_cons, List.foldl_cons]
    rw [addPair_match k v vs0 acc h]
    rw [foldl_addPair_sameKey k (vs0 ++ [v]) vs acc h]
    simp

theorem foldl_addPair_grouped :
    ∀ (g : List (List Char × List (List Char)))
      (acc : List (List Char × List (List Char))),
      (g.map Prod.fst).Nodup →
      (∀ k ∈ g.map Prod.fst, k ∉ acc.map Prod.fst) →
      (∀ kv ∈ g, kv.2 ≠ []) →
      ((g.flatMap (fun kv => kv.2.map (fun v => (kv.1, v)))).foldl
          (fun acc kv => addPair acc kv.1 kv.2) acc) = acc ++ g
  | [], acc, _, _, _ => by simp
  | (k, vs) :: t, acc, hnd, hdisj, hvs => by
    match vs, hvs (k, vs) (List.mem_cons_self _ _) with
    | v :: vs2, _ =>
    simp only [List.flatMap_cons, List.map_cons, List.foldl_append,
      List.foldl_cons]
    have hk : k ∉ acc.map Prod.fst :=
      hdisj k (by simp)
    rw [addPair_new k v acc hk]
    rw [foldl_addPair_sameKey k [v] vs2 acc hk]
    have hnd2 : (t.map Prod.fst).Nodup := (List.nodup_cons.1 hnd).2
    have hknott : k ∉ t.map Prod.fst := (List.nodup_cons.1 hnd).1
    have hdisj2 : ∀ k2 ∈ t.map Prod.fst,
        k2 ∉ (acc ++ [(k, [v] ++ vs2)]).map Prod.fst := by
      intro k2 hk2
      simp only [List.map_append, List.mem_append, List.map_cons,
        List.map_nil, List.mem_singleton, not_or]
      refine ⟨hdisj k2 (List.mem_cons_of_mem _ hk2), ?_⟩
      rintro rfl
      exact hknott hk2
    have hvs2 : ∀ kv ∈ t, kv.2 ≠ [] :=
      fun kv hkv => hvs kv (List.mem_cons_of_mem _ hkv)
    rw [foldl_addPair_grouped t (acc ++ [(k, [v] ++ vs2)]) hnd2 hdisj2 hvs2]
    simp

theorem parse_qs_urlencodeQ (g : List (List Char × List (List Char)))
    (hnd : (g.map Prod.fst).Nodup) (hvs : ∀ kv ∈ g, kv.2 ≠ []) :
    parse_qs (urlencodeQ g) = g := by
  unfold parse_qs
  rw [parseQSL_urlencodeQ]
  have h := foldl_addPair_grouped g [] hnd (by simp) hvs
  simpa using h

theorem foldl_addPair_fst_nodup :
    ∀ (pairs : List (List Char × List Char))
      (acc : List (List Char × List (List Char))),
      (acc.map Prod.fst).Nodup →
      ((pairs.foldl (fun acc kv => addPair acc kv.1 kv.2) acc).map
        Prod.fst).Nodup
  | [], acc, h => h
  | (k, v) :: t, acc, h => by
    simp only [List.foldl_cons]
    refine foldl_addPair_fst_nodup t _ ?_
    rw [addPair_fst]
    by_cases hmem : k ∈ acc.map Prod.fst
    · simp only [hmem, if_true]
      exact h
    · simp only [hmem, if_false]
      simp only [List.nodup_append, List.nodup_singleton,
        List.mem_singleton]
      exact ⟨h, by simp, fun a ha hae => hmem ((List.mem_singleton.1 hae) ▸ ha)⟩

theorem mem_addPair_values :
    ∀ {acc : List (List Char × List (List Char))} {k v : List Char}
      {kv : List Char × List (List Char)},
      kv ∈ addPair acc k v → (∀ kv2 ∈ acc, kv2.2 ≠ []) → kv.2 ≠ [] := by
  intro acc
  induction acc with
  | nil =>
    intro k v kv h _
    rcases List.mem_singleton.1 h with rfl
    simp
  | cons kv2 rest ih =>
    intro k v kv h hacc
    simp only [addPair] at h
    split at h
    · rcases List.mem_cons.1 h with rfl | hmem
      · simp
      · exact hacc _ (List.mem_cons_of_mem _ hmem)
    · rcases List.mem_cons.1 h with rfl | hmem
      · exact hacc kv2 (List.mem_cons_self _ _)
      · exact ih hmem (fun kv3 h3 => hacc kv3 (List.mem_cons_of_mem _ h3))

theorem foldl_addPair_values_ne :
    ∀ (pairs : List (List Char × List Char))
      (acc : List (List Char × List (List Char))),
      (∀ kv ∈ acc, kv.2 ≠ []) →
      ∀ kv ∈ pairs.foldl (fun acc kv => addPair acc kv.1 kv.2) acc, kv.2 ≠ []
  | [], acc, h => h
  | (k, v) :: t, acc, h => by
    simp only [List.foldl_cons]
    exact foldl_addPair_values_ne t _
      (fun kv hkv => mem_addPair_values hkv h)

theorem parse_qs_fst_nodup (q : List Char) :
    ((parse_qs q).map Prod.fst).Nodup :=
  foldl_addPair_fst_nodup (parseQSL q) [] (by simp)

theorem parse_qs_values_ne (q : List Char) :
    ∀ kv ∈ parse_qs q, kv.2 ≠ [] :=
  foldl_addPair_values_ne (parseQSL q) [] (by simp)

/-! ## C7/C8: the encoded query string is clean -/

theorem mem_urlencodeQ_class {c : Char} {g : List (List Char × List (List Char))}
    (h : c ∈ urlencodeQ g) :
    c = '&' ∨ c = '=' ∨ ∃ s, c ∈ quotePlus s := by
  rw [urlencodeQ_fields] at h
  rcases mem_interL h with h2 | ⟨f, hf, hcf⟩
  · exact Or.inl h2
  · obtain ⟨kv, _, rfl⟩ := List.mem_map.1 hf
    rcases List.mem_append.1 hcf with h3 | h3
    · exact Or.inr (Or.inr ⟨kv.1, h3⟩)
    · rcases List.mem_cons.1 h3 with rfl | h4
      · exact Or.inr (Or.inl rfl)
      · exact Or.inr (Or.inr ⟨kv.2, h4⟩)

theorem urlencodeQ_no_hash {g : List (List Char × List (List Char))} :
    ∀ c ∈ urlencodeQ g, c ≠ '#' := by
  intro c hc
  rcases mem_urlencodeQ_class hc with rfl | rfl | ⟨s, hs⟩
  · decide
  · decide
  · exact hash_not_mem_quotePlus hs

theorem urlencodeQ_clean {g : List (List Char × List (List Char))} :
    ∀ c ∈ urlencodeQ g, ¬(c = '\t' ∨ c = '\r' ∨ c = '\n') := by
  intro c hc
  rcases mem_urlencodeQ_class hc with rfl | rfl | ⟨s, hs⟩
  · decide
  · decide
  · rintro (rfl | rfl | rfl)
    · exact quotePlus_ne_special (by decide) (by decide) (by decide) (by decide)
        (by decide) hs rfl
    · exact quotePlus_ne_special (by decide) (by decide) (by decide) (by decide)
        (by decide) hs rfl
    · exact quotePlus_ne_special (by decide) (by decide) (by decide) (by decide)
        (by decide) hs rfl

theorem interL_cons_ne {sep : Char} (f : List Char) (r : List (List Char))
    (hf : f ≠ []) : interL sep (f :: r) ≠ [] := by
  cases r with
  | nil => simpa [interL] using hf
  | cons f2 t =>
    simp only [interL]
    intro hcon
    exact absurd (List.append_eq_nil.1 hcon).2 (by simp)

theorem urlencodeQ_ne_nil {g : List (List Char × List (List Char))}
    (hg : g ≠ []) (hvs : ∀ kv ∈ g, kv.2 ≠ []) : urlencodeQ g ≠ [] := by
  match g, hg with
  | (k, vs) :: t, _ =>
    match vs, hvs (k, vs) (List.mem_cons_self _ _) with
    | v :: vs2, _ =>
      rw [urlencodeQ_fields]
      simp only [List.flatMap_cons, List.map_cons, List.cons_append,
        List.map_append]
      exact interL_cons_ne _ _ (by simp)

/-! ## C8: no tracking parameter survives normalization -/

/-- **C8**: the output of `normalize_url` carries exactly the query
component assembled in `normalizeParts`, and no parameter of that query
has a lowercased name in the tracking set — every such parameter is
dropped. -/
theorem normalize_url_drops_tracking (u : String) :
    normalize_url u = String.mk (urlunparseChars (normalizeParts u).scheme
      (normalizeParts u).netloc (normalizeParts u).path
      (normalizeParts u).query) ∧
    ∀ kv ∈ parse_qs (normalizeParts u).query,
      String.mk (lowerL kv.1) ∉ TRACKING_PARAMS := by
  refine ⟨rfl, ?_⟩
  intro kv hkv
  have hq : (normalizeParts u).query = [] ∨
      ∃ filtered, (normalizeParts u).query = urlencodeQ filtered ∧
        (filtered.map Prod.fst).Nodup ∧ (∀ kv2 ∈ filtered, kv2.2 ≠ []) ∧
        ∀ kv2 ∈ filtered,
          (!TRACKING_PARAMS.contains (String.mk (lowerL kv2.1))) = true := by
    unfold normalizeParts
    simp only
    by_cases h1 : (!(urlparseChars u.data).query.isEmpty) = true
    · simp only [h1, if_true]
      by_cases h2 : (!((parse_qs (urlparseChars u.data).query).filter
          (fun kv => !TRACKING_PARAMS.contains (String.mk (lowerL kv.1)))).isEmpty) = true
      · simp only [h2, if_true]
        refine Or.inr ⟨_, rfl, ?_, ?_, ?_⟩
        · exact ((parse_qs_fst_nodup _).sublist
            ((List.filter_sublist _).map Prod.fst))
        · intro kv2 hkv2
          exact parse_qs_values_ne _ kv2 (List.mem_filter.1 hkv2).1
        · intro kv2 hkv2
          exact (List.mem_filter.1 hkv2).2
      · simp only [h2]
        exact Or.inl (by simp)
    · simp only [h1]
      exact Or.inl (by simp)
  rcases hq with hq | ⟨filtered, hq, hnd, hvs, hpred⟩
  · rw [hq] at hkv
    simp [parse_qs, parseQSL, splitAll] at hkv
  · rw [hq, parse_qs_urlencodeQ filtered hnd hvs] at hkv
    have h3 := hpred kv hkv
    intro hmem
    rw [← containsStr_iff] at hmem
    rw [hmem] at h3
    exact absurd h3 (by decide)

/-- Witness for C8 at a concrete URL whose query mixes a kept and a
dropped parameter. -/
theorem normalize_url_drops_tracking_witness :
    ("id".data, ["1".data]) ∈
        parse_qs (normalizeParts "http://example.com/a?id=1&utm_source=x").query ∧
      String.mk (lowerL ("id".data, ["1".data]).1) ∉ TRACKING_PARAMS :=
  ⟨by decide,
    (normalize_url_drops_tracking "http://example.com/a?id=1&utm_source=x").2
      ("id".data, ["1".data]) (by decide)⟩

/-! ## C7: idempotence of `normalize_url` -/

theorem takeWhile_append_all {α : Type} (pred : α → Bool) :
    ∀ {l1 : List α} (l2 : List α), l1.all pred = true →
      (l1 ++ l2).takeWhile pred = l1 ++ l2.takeWhile pred
  | [], l2, _ => rfl
  | a :: t, l2, h => by
    simp only [List.all_cons, Bool.and_eq_true] at h
    simp only [List.cons_append, List.takeWhile_cons, h.1, if_true]
    rw [takeWhile_append_all pred l2 h.2]

theorem dropWhile_append_all {α : Type} (pred : α → Bool) :
    ∀ {l1 : List α} (l2 : List α), l1.all pred = true →
      (l1 ++ l2).dropWhile pred = l2.dropWhile pred
  | [], l2, _ => rfl
  | a :: t, l2, h => by
    simp only [List.all_cons, Bool.and_eq_true] at h
    simp only [List.cons_append, List.dropWhile_cons, h.1, if_true]
    rw [dropWhile_append_all pred l2 h.2]

theorem takeWhile_netlocEnd_head (l : List Char)
    (h : ∀ c, l.head? = some c → isNetlocEnd c = true) :
    l.takeWhile (fun c => !isNetlocEnd c) = [] ∧
      l.dropWhile (fun c => !isNetlocEnd c) = l := by
  cases l with
  | nil => exact ⟨rfl, rfl⟩
  | cons a t =>
    have ha := h a rfl
    constructor
    · simp [List.takeWhile_cons, ha]
    · simp [List.dropWhile_cons, ha]

theorem splitNetloc_slash2 (r : List Char) :
    splitNetloc ('/' :: '/' :: r) =
      (r.takeWhile (fun c => !isNetlocEnd c), r.dropWhile (fun c => !isNetlocEnd c)) := rfl

theorem splitNetloc_single (a : Char) : splitNetloc [a] = ([], [a]) := by
  unfold splitNetloc
  split
  · next rest heq =>
    injection heq with h1 h2
    simp at h2
  · rfl

theorem splitNetloc_noslash (l : List Char) (h : l.take 2 ≠ ['/', '/']) :
    splitNetloc l = ([], l) := by
  rcases l with _ | ⟨a, _ | ⟨b, t⟩⟩
  · rfl
  · exact splitNetloc_single a
  · by_cases ha : a = '/'
    · by_cases hb : b = '/'
      · exact absurd (by rw [ha, hb]; rfl) h
      · subst ha
        unfold splitNetloc
        split
        · next rest heq =>
          injection heq with h1 h2
          injection h2 with h3 h4
          exact absurd h3 hb
        · rfl
    · unfold splitNetloc
      split
      · next rest heq =>
        injection heq with h1 h2
        exact absurd h1 ha
      · rfl

theorem splitNetloc_roundtrip (n rest : List Char)
    (hn : n.all (fun c => !isNetlocEnd c) = true)
    (hrest : ∀ c, rest.head? = some c → isNetlocEnd c = true) :
    splitNetloc ('/' :: '/' :: (n ++ rest)) = (n, rest) := by
  rw [splitNetloc_slash2]
  obtain ⟨h1, h2⟩ := takeWhile_netlocEnd_head rest hrest
  rw [takeWhile_append_all _ rest hn, dropWhile_append_all _ rest hn, h1, h2,
    List.append_nil]

theorem splitScheme_valid (s rest : List Char) (hne : s ≠ [])
    (hh : headIsAlpha s = true) (hall : s.all isSchemeChar = true) :
    splitScheme (s ++ ':' :: rest) = (s.map Char.toLower, rest) := by
  have hns : ':' ∉ s := by
    intro hmem
    exact absurd (List.all_eq_true.1 hall _ hmem) (by decide)
  have hs1 : s.isEmpty = false := by
    cases s
    · exact absurd rfl hne
    · rfl
  unfold splitScheme
  rw [splitOnFirst_append rest hns]
  simp only [hs1, hh, hall, Bool.not_false, Bool.and_self, if_true]

theorem splitScheme_not_alpha (c : Char) (t : List Char) (hc : c.isAlpha = false)
    (hcc : ¬c = ':') : splitScheme (c :: t) = ([], c :: t) := by
  unfold splitScheme
  simp only [splitOnFirst, hcc, if_false]
  cases hr : (splitOnFirst ':' t).2 with
  | none => rfl
  | some b =>
    simp only [hr, headIsAlpha, hc, Bool.and_false, Bool.false_and,
      Bool.and_self, Bool.false_eq_true, if_false]

theorem splitScheme_of_noScheme (l : List Char) (h : noSchemeSplit l = true) :
    splitScheme l = ([], l) := by
  unfold noSchemeSplit at h
  unfold splitScheme
  cases hr : splitOnFirst ':' l with
  | mk pre orest =>
    cases orest with
    | none => rfl
    | some b =>
      rw [hr] at h
      simp only at h
      show (if (!pre.isEmpty && headIsAlpha pre && pre.all isSchemeChar) = true then
          (pre.map Char.toLower, b) else ([], l)) = ([], l)
      rw [if_neg]
      intro hcond
      simp only [Bool.and_eq_true, Bool.not_eq_true'] at hcond
      simp only [Bool.or_eq_true, Bool.not_eq_true'] at h
      rcases h with (h | h) | h
      · rw [h] at hcond
        exact absurd hcond.1.1 (by decide)
      · rw [hcond.1.2] at h
        exact absurd h (by decide)
      · rw [hcond.2] at h
        exact absurd h (by decide)

theorem splitFragment_no (l : List Char) (h : '#' ∉ l) :
    splitFragment l = (l, []) := by
  unfold splitFragment
  rw [splitOnFirst_no_sep h]

theorem splitQuery_no (l : List Char) (h : '?' ∉ l) :
    splitQuery l = (l, []) := by
  unfold splitQuery
  rw [splitOnFirst_no_sep h]

theorem splitQuery_append (a b : List Char) (h : '?' ∉ a) :
    splitQuery (a ++ '?' :: b) = (a, b) := by
  unfold splitQuery
  rw [splitOnFirst_append b h]

theorem head_ne_slash_take2 (p : List Char) (a : Char) (h : p.head? = some a)
    (ha : a ≠ '/') : p.take 2 ≠ ['/', '/'] := by
  cases p with
  | nil => simp at h
  | cons b t =>
    have hb : b = a := by simpa using h
    subst hb
    intro hcon
    cases t with
    | nil => simp at hcon
    | cons c r =>
      have : b = '/' := by
        have := congrArg List.head? hcon
        simpa using this
      exact ha this

theorem head_netlocEnd_u1 (p Q : List Char) (hQ : Q = [] ∨ Q.head? = some '?') :
    ∀ c, ((if !p.isEmpty && decide (p.head? ≠ some '/') then '/' :: p else p)
        ++ Q).head? = some c → isNetlocEnd c = true := by
  intro c hc
  by_cases hcond : (!p.isEmpty && decide (p.head? ≠ some '/')) = true
  · rw [if_pos hcond] at hc
    simp only [List.cons_append, List.head?_cons, Option.some.injEq] at hc
    rw [← hc]
    decide
  · rw [Bool.not_eq_true] at hcond
    rw [if_neg (by rw [hcond]; exact Bool.false_ne_true)] at hc
    simp only [Bool.and_eq_false_iff] at hcond
    rcases hcond with hcond | hcond
    · have hp : p = [] := by simpa using hcond
      subst hp
      rcases hQ with rfl | hQ
      · simp at hc
      · rw [List.nil_append, hQ] at hc
        injection hc with hc
        rw [← hc]
        decide
    · have hp : p.head? = some '/' := by simpa using hcond
      cases p with
      | nil => simp at hp
      | cons a t =>
        have ha : a = '/' := by simpa using hp
        subst ha
        simp only [List.cons_append, List.head?_cons, Option.some.injEq] at hc
        rw [← hc]
        decide

theorem hash_not_mem_u1 (p Q : List Char) (hp : '#' ∉ p) (hQ : '#' ∉ Q) :
    '#' ∉ (if !p.isEmpty && decide (p.head? ≠ some '/') then '/' :: p else p)
      ++ Q := by
  intro hm
  rcases List.mem_append.1 hm with hm | hm
  · by_cases hcond : (!p.isEmpty && decide (p.head? ≠ some '/')) = true
    · rw [if_pos hcond] at hm
      rcases List.mem_cons.1 hm with hm | hm
      · exact absurd hm (by decide)
      · exact hp hm
    · rw [Bool.not_eq_true] at hcond
      rw [if_neg (by rw [hcond]; exact Bool.false_ne_true)] at hm
      exact hp hm
  · exact hQ hm

theorem qmark_not_mem_u1 (p : List Char) (hp : '?' ∉ p) :
    '?' ∉ (if !p.isEmpty && decide (p.head? ≠ some '/') then '/' :: p else p) := by
  by_cases hcond : (!p.isEmpty && decide (p.head? ≠ some '/')) = true
  · rw [if_pos hcond]
    intro hm
    rcases List.mem_cons.1 hm with hm | hm
    · exact absurd hm (by decide)
    · exact hp hm
  · rw [Bool.not_eq_true] at hcond
    rw [if_neg (by rw [hcond]; exact Bool.false_ne_true)]
    exact hp

theorem take2_append_ne (p Q : List Char) (hp2 : p.take 2 ≠ ['/', '/'])
    (hQ : ∀ c, Q.head? = some c → c ≠ '/') : (p ++ Q).take 2 ≠ ['/', '/'] := by
  rcases p with _ | ⟨a, _ | ⟨b, t⟩⟩
  · rw [List.nil_append]
    cases Q with
    | nil => simp
    | cons c r =>
      intro hcon
      have hcq := hQ c rfl
      have : c = '/' := by
        have := congrArg List.head? hcon
        simpa using this
      exact hcq this
  · cases Q with
    | nil => simp only [List.append_nil]; exact hp2
    | cons c r =>
      intro hcon
      simp only [List.cons_append, List.nil_append, List.take] at hcon
      injection hcon with h1 h2
      have : c = '/' := by
        have := congrArg List.head? h2
        simpa using this
      exact hQ c rfl this
  · intro hcon
    simp only [List.cons_append, List.take] at hcon
    injection hcon with h1 h2
    injection h2 with h3 h4
    exact hp2 (by rw [h1, h3]; rfl)

theorem u1_eq_addSlash (s n p : List Char)
    (hC : (!n.isEmpty || (!s.isEmpty && USES_NETLOC.contains (String.mk s) &&
      decide (p.take 2 ≠ ['/', '/']))) = true)
    (hnp : n ≠ [] → p = [] ∨ p.head? = some '/') :
    (if !p.isEmpty && decide (p.head? ≠ some '/') then '/' :: p else p) =
      addSlash s n p := by
  cases n with
  | cons a t =>
    have hcond : (!p.isEmpty && decide (p.head? ≠ some '/')) = false := by
      rcases hnp (by simp) with rfl | hh
      · simp
      · simp [hh]
    simp only [hcond, Bool.false_eq_true, if_false]
    simp [addSlash]
  | nil =>
    simp only [Bool.or_eq_true] at hC
    rcases hC with hC | hC
    · simp at hC
    · simp only [Bool.and_eq_true] at hC
      obtain ⟨⟨hs2, hu⟩, _⟩ := hC
      unfold addSlash
      simp only [List.isEmpty_nil, Bool.true_and, hs2, hu]

theorem addSlash_of_not_C (s n p : List Char)
    (hC : (!n.isEmpty || (!s.isEmpty && USES_NETLOC.contains (String.mk s) &&
      decide (p.take 2 ≠ ['/', '/']))) = false) :
    addSlash s n p = p := by
  simp only [Bool.or_eq_false_iff] at hC
  obtain ⟨hn1, hrest⟩ := hC
  unfold addSlash
  rw [if_neg]
  intro hcond
  simp only [Bool.and_eq_true] at hcond
  obtain ⟨⟨⟨⟨hne, hs2⟩, hu⟩, hp1⟩, hp2⟩ := hcond
  rw [decide_eq_true_eq] at hp2
  have htake : decide (p.take 2 ≠ ['/', '/']) = true := by
    rw [decide_eq_true_eq]
    cases p with
    | nil => simp at hp1
    | cons a t =>
      exact head_ne_slash_take2 (a :: t) a rfl
        (fun hcon => hp2 (by rw [hcon]; rfl))
  rw [hs2, hu, htake] at hrest
  simp at hrest

theorem urlparse_roundtrip (s n p q : List Char)
    (hs : s = [] ∨ (headIsAlpha s = true ∧ s.all isSchemeChar = true))
    (hsl : s.map Char.toLower = s)
    (hn : n.all (fun c => !isNetlocEnd c) = true)
    (hnp : n ≠ [] → p = [] ∨ p.head? = some '/')
    (h2 : ¬(n = [] ∧ p.take 2 = ['/', '/']))
    (hp : p.all (fun c => !(c = '#' || c = '?')) = true)
    (hq : q.all (fun c => !(c = '#')) = true)
    (h7 : s = [] → n = [] → noSchemeSplit
      (p ++ if q.isEmpty then [] else '?' :: q) = true)
    (hcl : cleanUrl (urlunparseChars s n p q) = urlunparseChars s n p q) :
    urlparseChars (urlunparseChars s n p q) =
      ⟨s, n, applyParams s (addSlash s n p), q, []⟩ := by
  have hph : '#' ∉ p := fun hm => absurd (List.all_eq_true.1 hp _ hm) (by decide)
  have hpq : '?' ∉ p := fun hm => absurd (List.all_eq_true.1 hp _ hm) (by decide)
  have hqh : '#' ∉ q := fun hm => absurd (List.all_eq_true.1 hq _ hm) (by decide)
  by_cases hC : (!n.isEmpty || (!s.isEmpty && USES_NETLOC.contains (String.mk s) &&
      decide (p.take 2 ≠ ['/', '/']))) = true
  · -- the unparser emitted the `//` netloc section
    have hu1 := u1_eq_addSlash s n p hC hnp
    rcases hs with hs0 | ⟨hh, hall⟩
    · -- no scheme
      subst hs0
      by_cases hq0 : q.isEmpty = true
      · have hq1 : q = [] := by
          cases q
          · rfl
          · simp at hq0
        subst hq1
        have hO : urlunparseChars [] n p [] =
            '/' :: '/' :: (n ++
              (if !p.isEmpty && decide (p.head? ≠ some '/') then '/' :: p else p)) := by
          simp only [urlunparseChars, hC, if_true]
          simp only [List.isEmpty_nil, Bool.not_true, Bool.false_eq_true, if_false]
        rw [hO] at hcl
        have e1 := splitScheme_not_alpha '/' ('/' :: (n ++
          (if !p.isEmpty && decide (p.head? ≠ some '/') then '/' :: p else p)))
          (by decide) (by decide)
        have hr0 := head_netlocEnd_u1 p [] (Or.inl rfl)
        simp only [List.append_nil] at hr0
        have e2 := splitNetloc_roundtrip n
          (if !p.isEmpty && decide (p.head? ≠ some '/') then '/' :: p else p) hn hr0
        have h3m := hash_not_mem_u1 p [] hph (by simp)
        simp only [List.append_nil] at h3m
        have e3 := splitFragment_no
          (if !p.isEmpty && decide (p.head? ≠ some '/') then '/' :: p else p) h3m
        have e4 := splitQuery_no
          (if !p.isEmpty && decide (p.head? ≠ some '/') then '/' :: p else p)
          (qmark_not_mem_u1 p hpq)
        simp only [urlparseChars, hO, hcl, e1, e2, e3, e4]
        rw [hu1]
        simp only [applyParams]
      · have hq0' : q.isEmpty = false := by rwa [Bool.not_eq_true] at hq0
        have hq2 : (!q.isEmpty) = true := by rw [hq0']; rfl
        have hO : urlunparseChars [] n p q =
            '/' :: '/' :: (n ++
              ((if !p.isEmpty && decide (p.head? ≠ some '/') then '/' :: p else p)
                ++ '?' :: q)) := by
          simp only [urlunparseChars, hC, if_true]
          simp only [hq2, if_true]
          simp only [List.isEmpty_nil, Bool.not_true, Bool.false_eq_true, if_false,
            List.cons_append, List.append_assoc]
        rw [hO] at hcl
        have e1 := splitScheme_not_alpha '/' ('/' :: (n ++
          ((if !p.isEmpty && decide (p.head? ≠ some '/') then '/' :: p else p)
            ++ '?' :: q))) (by decide) (by decide)
        have e2 := splitNetloc_roundtrip n
          ((if !p.isEmpty && decide (p.head? ≠ some '/') then '/' :: p else p)
            ++ '?' :: q) hn (head_netlocEnd_u1 p ('?' :: q) (Or.inr rfl))
        have e3 := splitFragment_no
          ((if !p.isEmpty && decide (p.head? ≠ some '/') then '/' :: p else p)
            ++ '?' :: q)
          (hash_not_mem_u1 p ('?' :: q) hph (by
            intro hm
            rcases List.mem_cons.1 hm with hm | hm
            · exact absurd hm (by decide)
            · exact hqh hm))
        have e4 := splitQuery_append
          (if !p.isEmpty && decide (p.head? ≠ some '/') then '/' :: p else p) q
          (qmark_not_mem_u1 p hpq)
        simp only [urlparseChars, hO, hcl, e1, e2, e3, e4]
        rw [hu1]
        simp only [applyParams]
    · -- scheme present
      have hsne : s ≠ [] := by
        intro hcon
        rw [hcon] at hh
        exact absurd hh (by decide)
      have hs2 : (!s.isEmpty) = true := by
        cases s
        · exact absurd rfl hsne
        · rfl
      by_cases hq0 : q.isEmpty = true
      · have hq1 : q = [] := by
          cases q
          · rfl
          · simp at hq0
        subst hq1
        have hO : urlunparseChars s n p [] =
            s ++ ':' :: '/' :: '/' :: (n ++
              (if !p.isEmpty && decide (p.head? ≠ some '/') then '/' :: p else p)) := by
          simp only [urlunparseChars, hC, if_true]
          simp only [hs2, if_true]
          simp only [List.isEmpty_nil, Bool.not_true, Bool.false_eq_true, if_false,
            List.cons_append, List.append_assoc]
        rw [hO] at hcl
        have e1 := splitScheme_valid s ('/' :: '/' :: (n ++
          (if !p.isEmpty && decide (p.head? ≠ some '/') then '/' :: p else p)))
          hsne hh hall
        rw [hsl] at e1
        have hr0 := head_netlocEnd_u1 p [] (Or.inl rfl)
        simp only [List.append_nil] at hr0
        have e2 := splitNetloc_roundtrip n
          (if !p.isEmpty && decide (p.head? ≠ some '/') then '/' :: p else p) hn hr0
        have h3m := hash_not_mem_u1 p [] hph (by simp)
        simp only [List.append_nil] at h3m
        have e3 := splitFragment_no
          (if !p.isEmpty && decide (p.head? ≠ some '/') then '/' :: p else p) h3m
        have e4 := splitQuery_no
          (if !p.isEmpty && decide (p.head? ≠ some '/') then '/' :: p else p)
          (qmark_not_mem_u1 p hpq)
        simp only [urlparseChars, hO, hcl, e1, e2, e3, e4]
        rw [hu1]
        simp only [applyParams]
      · have hq0' : q.isEmpty = false := by rwa [Bool.not_eq_true] at hq0
        have hq2 : (!q.isEmpty) = true := by rw [hq0']; rfl
        have hO : urlunparseChars s n p q =
            s ++ ':' :: '/' :: '/' :: (n ++
              ((if !p.isEmpty && decide (p.head? ≠ some '/') then '/' :: p else p)
                ++ '?' :: q)) := by
          simp only [urlunparseChars, hC, if_true]
          simp only [hs2, hq2, if_true]
          simp only [List.cons_append, List.append_assoc]
        rw [hO] at hcl
        have e1 := splitScheme_valid s ('/' :: '/' :: (n ++
          ((if !p.isEmpty && decide (p.head? ≠ some '/') then '/' :: p else p)
            ++ '?' :: q))) hsne hh hall
        rw [hsl] at e1
        have e2 := splitNetloc_roundtrip n
          ((if !p.isEmpty && decide (p.head? ≠ some '/') then '/' :: p else p)
            ++ '?' :: q) hn (head_netlocEnd_u1 p ('?' :: q) (Or.inr rfl))
        have e3 := splitFragment_no
          ((if !p.isEmpty && decide (p.head? ≠ some '/') then '/' :: p else p)
            ++ '?' :: q)
          (hash_not_mem_u1 p ('?' :: q) hph (by
            intro hm
            rcases List.mem_cons.1 hm with hm | hm
            · exact absurd hm (by decide)
            · exact hqh hm))
        have e4 := splitQuery_append
          (if !p.isEmpty && decide (p.head? ≠ some '/') then '/' :: p else p) q
          (qmark_not_mem_u1 p hpq)
        simp only [urlparseChars, hO, hcl, e1, e2, e3, e4]
        rw [hu1]
        simp only [applyParams]
  · -- relative form: no `//` section emitted
    rw [Bool.not_eq_true] at hC
    have hn0 : n = [] := by
      have h3 := (Bool.or_eq_false_iff.1 hC).1
      cases n
      · rfl
      · simp at h3
    subst hn0
    have haddS : addSlash s [] p = p := addSlash_of_not_C s [] p hC
    have hp2 : p.take 2 ≠ ['/', '/'] := fun hcon => h2 ⟨rfl, hcon⟩
    rcases hs with hs0 | ⟨hh, hall⟩
    · subst hs0
      have hns0 := h7 rfl rfl
      by_cases hq0 : q.isEmpty = true
      · have hq1 : q = [] := by
          cases q
          · rfl
          · simp at hq0
        subst hq1
        simp only [List.isEmpty_nil, if_true, List.append_nil] at hns0
        have hO : urlunparseChars [] [] p [] = p := by
          simp only [urlunparseChars, hC, Bool.false_eq_true, if_false]
          simp only [List.isEmpty_nil, Bool.not_true, Bool.false_eq_true, if_false]
        rw [hO] at hcl
        have e1 := splitScheme_of_noScheme p hns0
        have e2 := splitNetloc_noslash p hp2
        have e3 := splitFragment_no p hph
        have e4 := splitQuery_no p hpq
        simp only [urlparseChars, hO, hcl, e1, e2, e3, e4]
        rw [haddS]
        simp only [applyParams]
      · have hq0' : q.isEmpty = false := by rwa [Bool.not_eq_true] at hq0
        have hq2 : (!q.isEmpty) = true := by rw [hq0']; rfl
        simp only [hq0', Bool.false_eq_true, if_false] at hns0
        have hO : urlunparseChars [] [] p q = p ++ '?' :: q := by
          simp only [urlunparseChars, hC, Bool.false_eq_true, if_false]
          simp only [hq2, if_true]
          simp only [List.isEmpty_nil, Bool.not_true, Bool.false_eq_true, if_false]
        rw [hO] at hcl
        have e1 := splitScheme_of_noScheme (p ++ '?' :: q) hns0
        have e2 := splitNetloc_noslash (p ++ '?' :: q)
          (take2_append_ne p ('?' :: q) hp2 (fun c hc => by
            have hcq : '?' = c := by simpa using hc
            rw [← hcq]
            decide))
        have e3 := splitFragment_no (p ++ '?' :: q) (by
          intro hm
          rcases List.mem_append.1 hm with hm | hm
          · exact hph hm
          · rcases List.mem_cons.1 hm with hm | hm
            · exact absurd hm (by decide)
            · exact hqh hm)
        have e4 := splitQuery_append p q hpq
        simp only [urlparseChars, hO, hcl, e1, e2, e3, e4]
        rw [haddS]
        simp only [applyParams]
    · have hsne : s ≠ [] := by
        intro hcon
        rw [hcon] at hh
        exact absurd hh (by decide)
      have hs2 : (!s.isEmpty) = true := by
        cases s
        · exact absurd rfl hsne
        · rfl
      by_cases hq0 : q.isEmpty = true
      · have hq1 : q = [] := by
          cases q
          · rfl
          · simp at hq0
        subst hq1
        have hO : urlunparseChars s [] p [] = s ++ ':' :: p := by
          simp only [urlunparseChars, hC, Bool.false_eq_true, if_false]
          simp only [hs2, if_true]
          simp only [List.isEmpty_nil, Bool.not_true, Bool.false_eq_true, if_false]
        rw [hO] at hcl
        have e1 := splitScheme_valid s p hsne hh hall
        rw [hsl] at e1
        have e2 := splitNetloc_noslash p hp2
        have e3 := splitFragment_no p hph
        have e4 := splitQuery_no p hpq
        simp only [urlparseChars, hO, hcl, e1, e2, e3, e4]
        rw [haddS]
        simp only [applyParams]
      · have hq0' : q.isEmpty = false := by rwa [Bool.not_eq_true] at hq0
        have hq2 : (!q.isEmpty) = true := by rw [hq0']; rfl
        have hO : urlunparseChars s [] p q = s ++ ':' :: (p ++ '?' :: q) := by
          simp only [urlunparseChars, hC, Bool.false_eq_true, if_false]
          simp only [hs2, hq2, if_true]
          simp only [List.cons_append, List.append_assoc]
        rw [hO] at hcl
        have e1 := splitScheme_valid s (p ++ '?' :: q) hsne hh hall
        rw [hsl] at e1
        have e2 := splitNetloc_noslash (p ++ '?' :: q)
          (take2_append_ne p ('?' :: q) hp2 (fun c hc => by
            have hcq : '?' = c := by simpa using hc
            rw [← hcq]
            decide))
        have e3 := splitFragment_no (p ++ '?' :: q) (by
          intro hm
          rcases List.mem_append.1 hm with hm | hm
          · exact hph hm
          · rcases List.mem_cons.1 hm with hm | hm
            · exact absurd hm (by decide)
            · exact hqh hm)
        have e4 := splitQuery_append p q hpq
        simp only [urlparseChars, hO, hcl, e1, e2, e3, e4]
        rw [haddS]
        simp only [applyParams]

theorem rstripSlash_fixed_cons (c : Char) (p : List Char) (hp : p ≠ [])
    (hfix : rstripSlash p = p) : rstripSlash (c :: p) = c :: p := by
  unfold rstripSlash at hfix ⊢
  cases hrev : p.reverse with
  | nil =>
    exact absurd (by simpa using hrev) hp
  | cons a t =>
    by_cases ha : a = '/'
    · exfalso
      rw [hrev, List.dropWhile_cons, if_pos (by simpa using ha)] at hfix
      have hlen := congrArg List.length hfix
      have hlen2 := congrArg List.length hrev
      have hle := (@List.dropWhile_sublist Char t (fun c => decide (c = '/'))).length_le
      simp only [List.length_reverse, List.length_cons] at hlen hlen2
      omega
    · have hp2 : p = t.reverse ++ [a] := by
        rw [← List.reverse_reverse p, hrev]
        simp
      rw [List.reverse_cons, hrev, List.cons_append, List.dropWhile_cons,
        if_neg (by simpa using ha)]
      simp [hp2]

theorem rstrip_addSlash (s n p : List Char)
    (hpr : p = ['/'] ∨ rstripSlash p = p) :
    (if addSlash s n p = ['/'] then addSlash s n p
     else rstripSlash (addSlash s n p)) = addSlash s n p := by
  unfold addSlash
  by_cases hc : (n.isEmpty && !s.isEmpty && USES_NETLOC.contains (String.mk s) &&
      !p.isEmpty && decide (p.head? ≠ some '/')) = true
  · simp only [hc, if_true]
    simp only [Bool.and_eq_true] at hc
    obtain ⟨⟨_, hp1⟩, hp2⟩ := hc
    rw [decide_eq_true_eq] at hp2
    have hpn : p ≠ [] := by
      intro hcon
      rw [hcon] at hp1
      exact absurd hp1 (by decide)
    have hne : ('/' :: p) ≠ ['/'] := by
      intro hcon
      injection hcon with _ h2
      exact hpn h2
    rw [if_neg hne]
    have hfix : rstripSlash p = p := by
      rcases hpr with rfl | h
      · exact (hp2 rfl).elim
      · exact h
    exact rstripSlash_fixed_cons '/' p hpn hfix
  · rw [Bool.not_eq_true] at hc
    simp only [hc, Bool.false_eq_true, if_false]
    rcases hpr with rfl | h
    · simp
    · by_cases hps : p = ['/']
      · simp [hps]
      · rw [if_neg hps]
        exact h

theorem urlunparse_addSlash (s n p q : List Char) :
    urlunparseChars s n (addSlash s n p) q = urlunparseChars s n p q := by
  unfold addSlash
  by_cases hc : (n.isEmpty && !s.isEmpty && USES_NETLOC.contains (String.mk s) &&
      !p.isEmpty && decide (p.head? ≠ some '/')) = true
  · simp only [hc, if_true]
    simp only [Bool.and_eq_true] at hc
    obtain ⟨⟨⟨⟨hne, hs2⟩, hu⟩, hp1⟩, hp2⟩ := hc
    rw [decide_eq_true_eq] at hp2
    have hpn : p ≠ [] := by
      intro hcon
      rw [hcon] at hp1
      exact absurd hp1 (by decide)
    have hnnil : n = [] := by
      cases n
      · rfl
      · simp at hne
    subst hnnil
    cases p with
    | nil => exact absurd rfl hpn
    | cons a t =>
      have ha : ¬a = '/' := by
        intro hcon
        exact hp2 (by subst hcon; rfl)
      have hL : ('/' :: a :: t).take 2 ≠ ['/', '/'] := by
        have he : ('/' :: a :: t).take 2 = ['/', a] := rfl
        rw [he]
        intro hcon
        injection hcon with h1 h2
        injection h2 with h3 h4
        exact ha h3
      have hR : (a :: t).take 2 ≠ ['/', '/'] :=
        head_ne_slash_take2 (a :: t) a rfl ha
      have hcond1L : (!([] : List Char).isEmpty ||
          (!s.isEmpty && USES_NETLOC.contains (String.mk s) &&
            decide (('/' :: a :: t).take 2 ≠ ['/', '/']))) = true := by
        rw [hs2, hu, decide_eq_true hL]
        rfl
      have hcond1R : (!([] : List Char).isEmpty ||
          (!s.isEmpty && USES_NETLOC.contains (String.mk s) &&
            decide ((a :: t).take 2 ≠ ['/', '/']))) = true := by
        rw [hs2, hu, decide_eq_true hR]
        rfl
      have hu1L : (!('/' :: a :: t).isEmpty &&
          decide (('/' :: a :: t).head? ≠ some '/')) = false := by
        simp
      have hu1R : (!(a :: t).isEmpty && decide ((a :: t).head? ≠ some '/')) = true := by
        simp [ha]
      simp only [urlunparseChars, hcond1L, hcond1R, if_true]
      simp only [hu1L, Bool.false_eq_true, if_false, hu1R, if_true]
  · rw [Bool.not_eq_true] at hc
    simp only [hc, Bool.false_eq_true, if_false]


/-- **C7 (amended)**: `normalize_url` is idempotent on every URL whose
first-pass components are stable in the sense of `stableParts`, i.e. the
stripped netloc does not still begin with a further `www.` label, the
produced path is unchanged by a second params-split and by the
leading-slash insertion of `urlunsplit`, and an empty netloc is not
followed by a `//`-initial path.  The unconditional claim is false: each
application strips one further `www.` label, and the `;`-params and
`//`-path interactions break it as well. -/
theorem normalize_url_idem (u : String) (h : stableParts (normalizeParts u)) :
    normalize_url (normalize_url u) = normalize_url u := by
  obtain ⟨hwww, hpar, hsl2, hs, hslo, hn, hnlo, hnp, hpr, hp, hq, hns, hcl⟩ := h
  have hrt := urlparse_roundtrip (normalizeParts u).scheme (normalizeParts u).netloc
    (normalizeParts u).path (normalizeParts u).query hs hslo hn hnp hsl2 hp hq hns hcl
  rw [hpar] at hrt
  have hqprov : (normalizeParts u).query = [] ∨
      ∃ filtered, (normalizeParts u).query = urlencodeQ filtered ∧
        (filtered.map Prod.fst).Nodup ∧ (∀ kv ∈ filtered, kv.2 ≠ []) ∧
        filtered ≠ [] ∧
        ∀ kv2 ∈ filtered,
          (!TRACKING_PARAMS.contains (String.mk (lowerL kv2.1))) = true := by
    unfold normalizeParts
    simp only
    by_cases h1 : (!(urlparseChars u.data).query.isEmpty) = true
    · simp only [h1, if_true]
      by_cases h2 : (!((parse_qs (urlparseChars u.data).query).filter
          (fun kv => !TRACKING_PARAMS.contains (String.mk (lowerL kv.1)))).isEmpty) = true
      · simp only [h2, if_true]
        refine Or.inr ⟨_, rfl, ?_, ?_, ?_, ?_⟩
        · exact ((parse_qs_fst_nodup _).sublist
            ((List.filter_sublist _).map Prod.fst))
        · intro kv2 hkv2
          exact parse_qs_values_ne _ kv2 (List.mem_filter.1 hkv2).1
        · intro hcon
          rw [hcon] at h2
          exact absurd h2 (by decide)
        · intro kv2 hkv2
          exact (List.mem_filter.1 hkv2).2
      · simp only [h2]
        exact Or.inl (by simp)
    · simp only [h1]
      exact Or.inl (by simp)
  have hdata : (normalize_url u).data = urlunparseChars (normalizeParts u).scheme
      (normalizeParts u).netloc (normalizeParts u).path (normalizeParts u).query := rfl
  set PU := normalizeParts u with hPU
  have hwf : ("www.".data.isPrefixOf PU.netloc) = false := by
    rw [← Bool.not_eq_true]
    exact hwww
  have hP2 : normalizeParts (normalize_url u) =
      ⟨PU.scheme, PU.netloc, addSlash PU.scheme PU.netloc PU.path, PU.query, []⟩ := by
    unfold normalizeParts
    rw [hdata, hrt]
    simp only
    rw [hslo, hnlo]
    simp only [hwf, Bool.false_eq_true, if_false]
    rw [rstrip_addSlash PU.scheme PU.netloc PU.path hpr]
    rcases hqprov with hQ0 | ⟨filtered, hQe, hnd, hvs, hfne, hpred⟩
    · rw [hQ0]
      simp
    · have hQne : PU.query ≠ [] := by
        rw [hQe]
        exact urlencodeQ_ne_nil hfne hvs
      have h1 : (!PU.query.isEmpty) = true := by
        cases hq3 : PU.query
        · exact absurd hq3 hQne
        · rfl
      simp only [h1, if_true]
      rw [hQe, parse_qs_urlencodeQ filtered hnd hvs]
      rw [List.filter_eq_self.mpr hpred]
      have h2 : (!filtered.isEmpty) = true := by
        cases hf3 : filtered
        · exact absurd hf3 hfne
        · rfl
      simp only [h2, if_true]
  calc normalize_url (normalize_url u)
      = String.mk (urlunparseChars (normalizeParts (normalize_url u)).scheme
          (normalizeParts (normalize_url u)).netloc
          (normalizeParts (normalize_url u)).path
          (normalizeParts (normalize_url u)).query) := rfl
    _ = String.mk (urlunparseChars PU.scheme PU.netloc
          (addSlash PU.scheme PU.netloc PU.path) PU.query) := by rw [hP2]
    _ = String.mk (urlunparseChars PU.scheme PU.netloc PU.path PU.query) := by
          rw [urlunparse_addSlash]
    _ = normalize_url u := by
          rw [hPU]
          rfl

/-- Counterexample to C7 as stated: the www-stripping rule removes only
one `www.` label per application, so a double `www.www.` netloc gives a
different string on the second pass. -/
theorem normalize_url_not_idempotent :
    normalize_url (normalize_url "http://www.www.example.com/a") ≠
      normalize_url "http://www.www.example.com/a" := by decide

/-- Witness for the amended C7 at a URL with a stripped `www.`, a
trailing slash and a dropped tracking parameter. -/
theorem normalize_url_idem_witness :
    stableParts (normalizeParts "https://www.example.com/a/?utm_source=x&id=1") ∧
      normalize_url (normalize_url "https://www.example.com/a/?utm_source=x&id=1") =
        normalize_url "https://www.example.com/a/?utm_source=x&id=1" :=
  ⟨by decide, normalize_url_idem "https://www.example.com/a/?utm_source=x&id=1"
    (by decide)⟩

end NewsAgent
